import Mathlib

/-!
Verification of the static-analysis pipeline (control-flow graph construction,
cyclomatic complexity, reaching definitions) of the repository.

Strings are modelled as lists of characters (`Str`).  Python regular
expressions are modelled by explicit backtracking scanners that follow the
engine's leftmost / greedy semantics; `\w`, `\s` and `str.strip` are modelled
over the ASCII range.  Python sets become `Finset`s, dicts keyed by block
labels become functions out of `Str`, and definition ids `"D1", "D2", ...`
are carried as the underlying numbers `1, 2, ...` (the keys are in bijection).
-/

abbrev Str := List Char

def str (s : String) : Str := s.data

/-! ## String primitives -/

def isWordChar (c : Char) : Bool := c.isAlpha || c.isDigit || c = '_'

def isIdentStart (c : Char) : Bool := c.isAlpha || c = '_'

/-- ASCII whitespace, the characters Python `\s` / `str.strip()` handle for
ASCII text: space, tab, newline, carriage return, vertical tab, form feed. -/
def isPySpace (c : Char) : Bool :=
  c = ' ' || c = '\t' || c = '\n' || c = '\r' || c = '\x0b' || c = '\x0c'

/-- Python substring test `w in s`. -/
def strContains (w : Str) : Str → Bool
  | [] => w.isPrefixOf []
  | s@(_ :: r) => w.isPrefixOf s || strContains w r

/-- `\b` before a word: previous character (if any) is not a word character. -/
def boundaryBefore : Option Char → Bool
  | none => true
  | some c => !isWordChar c

/-- `\b` after a word: next character (if any) is not a word character. -/
def boundaryAfter : Str → Bool
  | [] => true
  | c :: _ => !isWordChar c

/-- Does one of the words match at the current position (`prev` is the
character just before the position)? -/
def wordAtHere (ws : List Str) (prev : Option Char) (s : Str) : Bool :=
  boundaryBefore prev && ws.any (fun w => w.isPrefixOf s && boundaryAfter (s.drop w.length))

/-- `re.search(r'\b(w1|w2|...)\b', s)` viewed as a boolean: some alternative
matches at some position with word boundaries on both sides. -/
def searchWordsAux (ws : List Str) : Option Char → Str → Bool
  | prev, [] => wordAtHere ws prev []
  | prev, s@(c :: r) => wordAtHere ws prev s || searchWordsAux ws (some c) r

def searchWords (ws : List Str) (s : Str) : Bool := searchWordsAux ws none s

/-! ## Preprocessor (`preprocess_code`)

`re.sub(r'//.*|/\*[\s\S]*?\*/', '', code)` is modelled by the left-to-right
scanner `rc`: at each position a `//` comment removes the rest of the line
(the newline stays, since `.` does not match it), a `/*` comment removes up
to and including the first following `*/` (non-greedy) if one exists — the
`//` alternative is tried first, as in the pattern — and otherwise the
character is kept. -/

/-- Drop everything up to and including the first `*/`; `none` if there is no
`*/` (then the regex alternative `/\*[\s\S]*?\*/` cannot match). -/
def afterClose : Str → Option Str
  | [] => none
  | [_] => none
  | c :: d :: r => if c = '*' && d = '/' then some r else afterClose (d :: r)

theorem afterClose_length : ∀ {s u : Str}, afterClose s = some u → u.length < s.length := by
  intro s
  induction s with
  | nil => intro u h; simp [afterClose] at h
  | cons c r ih =>
    intro u h
    cases r with
    | nil => simp [afterClose] at h
    | cons d t =>
      rw [afterClose] at h
      split at h
      · injection h with h; subst h; simp [List.length_cons]; omega
      · have := ih h; simp [List.length_cons] at this ⊢; omega

theorem dropWhile_length_le (p : Char → Bool) :
    ∀ l : Str, (l.dropWhile p).length ≤ l.length := by
  intro l
  induction l with
  | nil => simp
  | cons c r ih =>
    rw [List.dropWhile]
    cases p c <;> simp <;> omega

/-- Comment removal (the `re.sub` above). -/
def rc : Str → Str
  | [] => []
  | [c] => [c]
  | c :: d :: r =>
    if c = '/' && d = '/' then rc (r.dropWhile (fun x => decide (x ≠ '\n')))
    else if c = '/' && d = '*' then
      match _h : afterClose r with
      | some u => rc u
      | none => c :: rc (d :: r)
    else c :: rc (d :: r)
termination_by s => s.length
decreasing_by
  · simp only [List.length_cons]
    have := dropWhile_length_le (fun x => decide (x ≠ '\n')) r
    omega
  · simp only [List.length_cons]
    have := afterClose_length _h
    omega
  · simp only [List.length_cons]; omega
  · simp only [List.length_cons]; omega

/-- Python `code.split('\n')` (returns `[""]` on the empty string). -/
def splitNL : Str → List Str
  | [] => [[]]
  | c :: r =>
    if c = '\n' then [] :: splitNL r
    else
      match splitNL r with
      | [] => [[c]]
      | l :: ls => (c :: l) :: ls

/-- Python `line.strip()` (over ASCII whitespace). -/
def strip (l : Str) : Str := ((l.dropWhile isPySpace).reverse.dropWhile isPySpace).reverse

/-- A line survives preprocessing when it is non-empty after stripping and is
not a lone opening or closing brace. -/
def keepLine (l : Str) : Bool :=
  decide (l ≠ []) && decide (l ≠ ['\x7b']) && decide (l ≠ ['\x7d'])

def preprocess_code (code : Str) : List Str :=
  ((splitNL (rc code)).map strip).filter keepLine

/-- `'\n'.join(lines)` (used to feed the preprocessor its own output). -/
def joinNL : List Str → Str
  | [] => []
  | l :: [] => l
  | l :: ls@(_ :: _) => l ++ '\n' :: joinNL ls

/-! ## Leaders (`find_leaders`) -/

/-- Digits of a natural number, as produced by Python string formatting
(the fuel argument only drives the recursion; `n + 1` digits always
suffice). -/
def natStrAux : Nat → Nat → Str
  | 0, _ => []
  | fuel + 1, n =>
    if n < 10 then [Char.ofNat (48 + n)]
    else natStrAux fuel (n / 10) ++ [Char.ofNat (48 + n % 10)]

def natStr (n : Nat) : Str := natStrAux (n + 1) n

/-- Block labels `f'B{k}'`. -/
def blockLabel (n : Nat) : Str := 'B' :: natStr n

def ctrlWords : List Str := [str "if", str "else if", str "else", str "for", str "while"]

def jumpWords : List Str := [str "return", str "break", str "continue"]

/-- `set.add`, on a duplicate-free list representation of the leader set. -/
def setAdd (i : ℕ) (s : List ℕ) : List ℕ := if i ∈ s then s else i :: s

/-- The body of the `find_leaders` loop for one line: control keywords mark
this index and the next, jump keywords mark only the next, braces mark this
index and the next; `n` is the total number of lines (the
`i + 1 < len(lines)` guards). -/
def flStep (n i : ℕ) (line : Str) (s : List ℕ) : List ℕ :=
  let s1 := if searchWords ctrlWords line then
              (if i + 1 < n then setAdd (i+1) (setAdd i s) else setAdd i s) else s
  let s2 := if searchWords jumpWords line then
              (if i + 1 < n then setAdd (i+1) s1 else s1) else s1
  if line.contains '\x7b' || line.contains '\x7d' then
    (if i + 1 < n then setAdd (i+1) (setAdd i s2) else setAdd i s2) else s2

/-- The `find_leaders` loop over all lines. -/
def flAux (n : Nat) : List Str → Nat → List ℕ → List ℕ
  | [], _, s => s
  | line :: rest, i, s => flAux n rest (i+1) (flStep n i line s)

/-- `find_leaders`: collect leader indices into a set (index 0 always), then
`sorted(list(...))`. -/
def find_leaders (lines : List Str) : List ℕ :=
  List.insertionSort (· ≤ ·) (flAux lines.length lines 0 [0])

/-! ## Basic blocks (`create_basic_blocks`) -/

/-- Python pySlice `lines[a:b]`. -/
def pySlice (lines : List Str) (a b : ℕ) : List Str := (lines.drop a).take (b - a)

/-- The loop of `create_basic_blocks`: each leader spans up to the next
leader (or the end); empty spans are dropped; labels count emitted blocks. -/
def cbbAux (lines : List Str) : List ℕ → ℕ → List (Str × List Str)
  | [], _ => []
  | [a], k =>
    let bl := pySlice lines a lines.length
    if bl.isEmpty then [] else [(blockLabel k, bl)]
  | a :: b :: rest, k =>
    let bl := pySlice lines a b
    if bl.isEmpty then cbbAux lines (b :: rest) k
    else (blockLabel k, bl) :: cbbAux lines (b :: rest) (k + 1)

def create_basic_blocks (lines : List Str) (leaders : List ℕ) : List (Str × List Str) :=
  cbbAux lines leaders 0

/-! ## Edges (`create_edges`) -/

/-- `" ".join(block)`. -/
def joinSp : List Str → Str
  | [] => []
  | [l] => l
  | l :: ls => l ++ ' ' :: joinSp ls

/-- The classification loop of `create_edges`.  Processing is positional:
`next?`/`next2?` are the labels one and two places ahead; `dec` carries the
labels of decision blocks seen so far. -/
def ceAux : List (Str × List Str) → Finset Str → List (Str × Str × Str)
  | [], _ => []
  | (lbl, bl) :: rest, dec =>
    let code := joinSp bl
    let next? : Option Str := rest.head?.map (·.1)
    let next2? : Option Str := (rest.drop 1).head?.map (·.1)
    if strContains (str "for") code || strContains (str "while") code then
      (match next? with
       | some nx =>
         [(lbl, nx, str "true"), (nx, lbl, str "back")] ++
         (match next2? with
          | some n2 => [(lbl, n2, str "false (exit)")]
          | none => [])
       | none => []) ++ ceAux rest (insert lbl dec)
    else if strContains (str "if") code || strContains (str "else if") code then
      ((match next? with
        | some nx => [(lbl, nx, str "true")]
        | none => []) ++
       (match next2? with
        | some n2 => [(lbl, n2, str "false")]
        | none => [])) ++ ceAux rest (insert lbl dec)
    else if strContains (str "else") code then
      (match next? with
       | some nx => [(lbl, nx, [])]
       | none => []) ++ ceAux rest dec
    else if !strContains (str "return") code && decide (lbl ∉ dec) then
      (if !(strContains (str "for") code || strContains (str "while") code ||
            strContains (str "if") code || strContains (str "else") code) then
        (match next? with
         | some nx => [(lbl, nx, [])]
         | none => [])
       else []) ++ ceAux rest dec
    else ceAux rest dec

/-- `create_edges`; `list(set(edges))` becomes deduplication (the claims only
use membership and cardinality of the resulting edge set). -/
def create_edges (blocks : List (Str × List Str)) : List (Str × Str × Str) :=
  (ceAux blocks ∅).dedup

/-! ## Metrics (`compute_metrics`) -/

/-- `N`, `E`, and `CC = E - N + 2` (over ℤ, as in Python). -/
def compute_metrics (blocks : List (Str × List Str)) (edges : List (Str × Str × Str)) :
    ℕ × ℕ × ℤ :=
  (blocks.length, edges.length, (edges.length : ℤ) - blocks.length + 2)

/-- `compute_predecessors`: sources of edges into each existing block label. -/
def compute_predecessors (blocks : List (Str × List Str))
    (edges : List (Str × Str × Str)) : Str → Finset Str :=
  fun l =>
    if (blocks.map Prod.fst).contains l then
      ((edges.filter (fun e => decide (e.2.1 = l))).map Prod.fst).toFinset
    else ∅

/-! ## Definitions (`find_definitions`)

`re.match(r'.*([a-zA-Z_]\w*)\s*=\s*[^;]+;', line)` with Python backtracking:
the greedy `.*` consumes as much as possible (without crossing a newline),
then the group `[a-zA-Z_]\w*` is as long as possible at the position chosen,
then `\s*` runs greedily into the mandatory `=`, and `[^;]+;` matches exactly
when the remainder's first `;` is not its first character.  `matchAssign`
returns the captured group of the first (leftmost-greedy) success. -/

/-- Does `\s*=\s*[^;]+;` match the remainder?  The spaces before `=` are
consumed greedily (whitespace never equals `=`), and `\s*[^;]+;` after the
`=` matches iff the first `;` of the remainder exists and is not at
position 0 (`[^;]` also accepts whitespace, so the second `\s*` adds
nothing). -/
def tailMatches (s : Str) : Bool :=
  match s.dropWhile isPySpace with
  | [] => false
  | c :: r =>
    if c = '=' then
      match r with
      | [] => false
      | c2 :: t => decide (c2 ≠ ';') && (c2 :: t).contains ';'
    else false

/-- Try capture lengths `k, k-1, ..., 1` at the current position (group
greedy, backtracking to shorter captures). -/
def tryLens (s : Str) : ℕ → Option Str
  | 0 => none
  | k + 1 => if tailMatches (s.drop (k+1)) then some (s.take (k+1)) else tryLens s k

/-- Try to place the capture group exactly at the head of `s`. -/
def tryVarAt (s : Str) : Option Str :=
  match s with
  | [] => none
  | c :: _ => if isIdentStart c then tryLens s (s.takeWhile isWordChar).length else none

/-- Try `.*`-lengths `k, k-1, ..., 0` (greedy `.*`, longest first). -/
def matchAux (line : Str) : ℕ → Option Str
  | 0 => tryVarAt line
  | k + 1 =>
    match tryVarAt (line.drop (k+1)) with
    | some v => some v
    | none => matchAux line k

/-- `re.match` for the assignment pattern: the captured variable name, if the
line matches.  `.*` cannot cross a newline, so positions beyond the first
`'\n'` are never tried. -/
def matchAssign (line : Str) : Option Str :=
  matchAux line (line.takeWhile (fun c => decide (c ≠ '\n'))).length

/-- One entry of the `definitions` dict: `"D" + id` maps to the line text,
the variable (regex group 1) and the block label. -/
structure Defn where
  id : ℕ
  line : Str
  var : Str
  block : Str
deriving DecidableEq, Repr

/-- Inner loop of `find_definitions` over the lines of one block; `cnt` is
the running `def_id`. -/
def fdLines (lbl : Str) : List Str → ℕ → List Defn × ℕ
  | [], cnt => ([], cnt)
  | line :: rest, cnt =>
    match matchAssign line with
    | some v =>
      let p := fdLines lbl rest (cnt + 1)
      ({ id := cnt, line := line, var := v, block := lbl } :: p.1, p.2)
    | none => fdLines lbl rest cnt

/-- Outer loop of `find_definitions` over blocks. -/
def fdBlocks : List (Str × List Str) → ℕ → List Defn
  | [], _ => []
  | (lbl, bl) :: rest, cnt =>
    let p := fdLines lbl bl cnt
    p.1 ++ fdBlocks rest p.2

/-- `find_definitions` (ids start at 1). -/
def find_definitions (blocks : List (Str × List Str)) : List Defn :=
  fdBlocks blocks 1

/-- `var_defs`: all definition ids for a variable name. -/
def var_defs (defs : List Defn) (v : Str) : Finset ℕ :=
  ((defs.filter (fun d => decide (d.var = v))).map (·.id)).toFinset

/-! ## gen/kill (`compute_gen_kill`)

For each block, every definition whose *line text* occurs among the block's
lines is generated there, and kills every other definition of its variable.
(The Python double loop over lines and definitions adds each such definition
once per occurrence into a set; the set it builds is exactly this one.) -/

def genOfBlock (defs : List Defn) (bl : List Str) : Finset ℕ :=
  ((defs.filter (fun d => bl.contains d.line)).map (·.id)).toFinset

def killOfBlock (defs : List Defn) (bl : List Str) : Finset ℕ :=
  (defs.filter (fun d => bl.contains d.line)).foldl
    (fun s d => s ∪ (var_defs defs d.var \ {d.id})) ∅

/-- `compute_gen_kill` as a pair of label-indexed maps; a later block with
the same label overwrites an earlier one, as with a Python dict. -/
def compute_gen_kill (blocks : List (Str × List Str)) (defs : List Defn) :
    (Str → Finset ℕ) × (Str → Finset ℕ) :=
  blocks.foldl
    (fun gk b =>
      (fun l => if l = b.1 then genOfBlock defs b.2 else gk.1 l,
       fun l => if l = b.1 then killOfBlock defs b.2 else gk.2 l))
    (fun _ => ∅, fun _ => ∅)

/-! ## The reaching-definitions solver (`reaching_definitions`)

State is the label-indexed family of `out` sets.  A sweep walks the blocks
in order, recomputing `in` from the *current* `out` of the predecessors and
updating `out` in place (exactly the in-place Python loop), and reports
whether any block's `out` changed.  The `in` sets are recomputed from `out`
each sweep and never read back, so `out` is the whole loop-carried state. -/

/-- `out[B] = gen[B] ∪ (in[B] - kill[B])` with
`in[B] = ⋃ out[P] for P in preds[B]` (the empty union is `∅`, matching the
conditional in the source). -/
def transfer (gen kill : Str → Finset ℕ) (preds : Str → Finset Str)
    (st : Str → Finset ℕ) (l : Str) : Finset ℕ :=
  gen l ∪ ((preds l).sup st \ kill l)

/-- One sweep, carrying the `changed` flag. -/
def sweepAux (gen kill : Str → Finset ℕ) (preds : Str → Finset Str) :
    List Str → (Str → Finset ℕ) × Bool → (Str → Finset ℕ) × Bool
  | [], p => p
  | l :: rest, (st, ch) =>
    let nv := transfer gen kill preds st l
    sweepAux gen kill preds rest
      (fun x => if x = l then nv else st x, ch || decide (nv ≠ st l))

/-- The state after one sweep, without the flag. -/
def sweepPure (gen kill : Str → Finset ℕ) (preds : Str → Finset Str) :
    List Str → (Str → Finset ℕ) → Str → Finset ℕ
  | [], st => st
  | l :: rest, st =>
    sweepPure gen kill preds rest
      (fun x => if x = l then transfer gen kill preds st l else st x)

/-- The `while changed` loop; returns the number of sweeps performed
(`iteration`, which is also the number of recorded snapshots) and the final
`out` map.  The fuel only bounds the loop; `rdFuel` below is proved
sufficient, so the loop always exits by the `changed = False` branch. -/
def solveLoop (gen kill : Str → Finset ℕ) (preds : Str → Finset Str)
    (order : List Str) : ℕ → (Str → Finset ℕ) → ℕ → ℕ × (Str → Finset ℕ)
  | 0, st, cnt => (cnt, st)
  | fuel + 1, st, cnt =>
    let p := sweepAux gen kill preds order (st, false)
    if p.2 then solveLoop gen kill preds order fuel p.1 (cnt + 1) else (cnt + 1, p.1)

def rdGen (blocks : List (Str × List Str)) : Str → Finset ℕ :=
  (compute_gen_kill blocks (find_definitions blocks)).1

def rdKill (blocks : List (Str × List Str)) : Str → Finset ℕ :=
  (compute_gen_kill blocks (find_definitions blocks)).2

/-- Sufficient fuel: `|blocks| * |definitions| + 1` sweeps. -/
def rdFuel (blocks : List (Str × List Str)) : ℕ :=
  blocks.length * (find_definitions blocks).length + 1

/-- `reaching_definitions`, reduced to its loop-carried content: the number
of sweeps performed (= number of iteration snapshots recorded) and the final
`out` map.  Blocks are visited in list order, as in the source. -/
def reaching_definitions (blocks : List (Str × List Str))
    (edges : List (Str × Str × Str)) : ℕ × (Str → Finset ℕ) :=
  solveLoop (rdGen blocks) (rdKill blocks) (compute_predecessors blocks edges)
    (blocks.map Prod.fst) (rdFuel blocks) (fun _ => ∅) 0

/-- The same solver visiting blocks in an arbitrary order within each sweep
(gen/kill/predecessors untouched); `reaching_definitions` is the case
`order = blocks.map Prod.fst`. -/
def reaching_definitions_order (blocks : List (Str × List Str))
    (edges : List (Str × Str × Str)) (order : List Str) : ℕ × (Str → Finset ℕ) :=
  solveLoop (rdGen blocks) (rdKill blocks) (compute_predecessors blocks edges)
    order (rdFuel blocks) (fun _ => ∅) 0

/-- The pure sweep of the pipeline's solver (for stating per-sweep facts). -/
def rdSweep (blocks : List (Str × List Str)) (edges : List (Str × Str × Str))
    (st : Str → Finset ℕ) : Str → Finset ℕ :=
  sweepPure (rdGen blocks) (rdKill blocks) (compute_predecessors blocks edges)
    (blocks.map Prod.fst) st

/-- `out` after `k` full sweeps from the all-empty initial state. -/
def rdIter (blocks : List (Str × List Str)) (edges : List (Str × Str × Str)) :
    ℕ → Str → Finset ℕ
  | 0 => fun _ => ∅
  | k + 1 => rdSweep blocks edges (rdIter blocks edges k)

/-! ## The composed pipeline (`analyze_cfg`) -/

/-- `analyze_cfg` without the I/O: blocks, edges, `N`, `E`, `CC`. -/
def analyze_cfg (code : Str) :
    List (Str × List Str) × List (Str × Str × Str) × ℕ × ℕ × ℤ :=
  let lines := preprocess_code code
  let blocks := create_basic_blocks lines (find_leaders lines)
  let edges := create_edges blocks
  (blocks, edges, compute_metrics blocks edges)

/-! ## Solver theory: monotonicity, termination, fixed points -/

/-- Pointwise inclusion of `out` states. -/
def stLE (s t : Str → Finset ℕ) : Prop := ∀ l, s l ⊆ t l

theorem stLE_refl (s : Str → Finset ℕ) : stLE s s := fun _ => Finset.Subset.refl _

theorem stLE_trans {s t u : Str → Finset ℕ} (h1 : stLE s t) (h2 : stLE t u) : stLE s u :=
  fun l => Finset.Subset.trans (h1 l) (h2 l)

theorem stLE_bot (s : Str → Finset ℕ) : stLE (fun _ => ∅) s := fun _ => Finset.empty_subset _

section Solver

variable (gen kill : Str → Finset ℕ) (preds : Str → Finset Str)

theorem transfer_mono {s t : Str → Finset ℕ} (h : stLE s t) (l : Str) :
    transfer gen kill preds s l ⊆ transfer gen kill preds t l := by
  unfold transfer
  apply Finset.union_subset_union (Finset.Subset.refl _)
  apply Finset.sdiff_subset_sdiff _ (Finset.Subset.refl _)
  exact Finset.sup_mono_fun (fun p _ => h p)

/-- The in-place update of one block during a sweep. -/
def updOut (st : Str → Finset ℕ) (l : Str) : Str → Finset ℕ :=
  fun x => if x = l then transfer gen kill preds st l else st x

theorem updOut_mono {s t : Str → Finset ℕ} (h : stLE s t) (l : Str) :
    stLE (updOut gen kill preds s l) (updOut gen kill preds t l) := by
  intro x
  unfold updOut
  by_cases hx : x = l
  · simp only [hx, if_pos rfl]
    exact transfer_mono gen kill preds h l
  · simp only [if_neg hx]
    exact h x

theorem sweepPure_cons (l : Str) (rest : List Str) (st : Str → Finset ℕ) :
    sweepPure gen kill preds (l :: rest) st =
      sweepPure gen kill preds rest (updOut gen kill preds st l) := rfl

theorem sweepPure_mono (L : List Str) : ∀ {s t : Str → Finset ℕ}, stLE s t →
    stLE (sweepPure gen kill preds L s) (sweepPure gen kill preds L t) := by
  induction L with
  | nil => intro s t h; exact h
  | cons l rest ih =>
    intro s t h
    rw [sweepPure_cons, sweepPure_cons]
    exact ih (updOut_mono gen kill preds h l)

/-- The chain invariant: every reached state is below its own transfer. -/
def solInv (s : Str → Finset ℕ) : Prop :=
  ∀ l, s l ⊆ transfer gen kill preds s l

theorem solInv_bot : solInv gen kill preds (fun _ => ∅) :=
  fun _ => Finset.empty_subset _

theorem updOut_infl {s : Str → Finset ℕ} (h : solInv gen kill preds s) (l : Str) :
    stLE s (updOut gen kill preds s l) := by
  intro x
  unfold updOut
  by_cases hx : x = l
  · subst hx; simp only [if_pos rfl]; exact h x
  · simp only [if_neg hx]; exact Finset.Subset.refl _

theorem updOut_inv {s : Str → Finset ℕ} (h : solInv gen kill preds s) (l : Str) :
    solInv gen kill preds (updOut gen kill preds s l) := by
  intro m
  by_cases hm : m = l
  · subst hm
    have : updOut gen kill preds s m m = transfer gen kill preds s m := by
      unfold updOut; simp
    rw [this]
    exact transfer_mono gen kill preds (updOut_infl gen kill preds h m) m
  · have : updOut gen kill preds s l m = s m := by unfold updOut; simp [hm]
    rw [this]
    exact Finset.Subset.trans (h m)
      (transfer_mono gen kill preds (updOut_infl gen kill preds h l) m)

theorem sweepPure_inv (L : List Str) : ∀ {s : Str → Finset ℕ},
    solInv gen kill preds s → solInv gen kill preds (sweepPure gen kill preds L s) := by
  induction L with
  | nil => intro s h; exact h
  | cons l rest ih =>
    intro s h
    rw [sweepPure_cons]
    exact ih (updOut_inv gen kill preds h l)

theorem sweepPure_infl (L : List Str) : ∀ {s : Str → Finset ℕ},
    solInv gen kill preds s → stLE s (sweepPure gen kill preds L s) := by
  induction L with
  | nil => intro s _; exact stLE_refl s
  | cons l rest ih =>
    intro s h
    rw [sweepPure_cons]
    exact stLE_trans (updOut_infl gen kill preds h l)
      (ih (updOut_inv gen kill preds h l))

theorem sweepAux_cons (l : Str) (rest : List Str) (st : Str → Finset ℕ) (ch : Bool) :
    sweepAux gen kill preds (l :: rest) (st, ch) =
      sweepAux gen kill preds rest
        (updOut gen kill preds st l,
         ch || decide (transfer gen kill preds st l ≠ st l)) := rfl

/-- The sweep's state component ignores the flag. -/
theorem sweepAux_fst (L : List Str) : ∀ (st : Str → Finset ℕ) (ch : Bool),
    (sweepAux gen kill preds L (st, ch)).1 = sweepPure gen kill preds L st := by
  induction L with
  | nil => intro st ch; rfl
  | cons l rest ih =>
    intro st ch
    rw [sweepAux_cons, sweepPure_cons]
    exact ih _ _

/-- Once raised, the flag stays raised. -/
theorem sweepAux_flag_mono (L : List Str) : ∀ (st : Str → Finset ℕ),
    (sweepAux gen kill preds L (st, true)).2 = true := by
  induction L with
  | nil => intro st; rfl
  | cons l rest ih =>
    intro st
    rw [sweepAux_cons]
    simp only [Bool.true_or]
    exact ih _

/-- A sweep that reports no change left the state untouched and certifies the
dataflow equations at every visited label. -/
theorem sweepAux_noChange (L : List Str) : ∀ (st : Str → Finset ℕ),
    (sweepAux gen kill preds L (st, false)).2 = false →
    sweepPure gen kill preds L st = st ∧
      ∀ l ∈ L, transfer gen kill preds st l = st l := by
  induction L with
  | nil => intro st _; exact ⟨rfl, by intro l h; cases h⟩
  | cons l rest ih =>
    intro st h
    rw [sweepAux_cons] at h
    by_cases hd : transfer gen kill preds st l = st l
    · have hupd : updOut gen kill preds st l = st := by
        funext x
        unfold updOut
        by_cases hx : x = l
        · subst hx; simp [hd]
        · simp [hx]
      rw [hupd, hd] at h
      simp only [decide_not, Bool.false_or] at h
      have h' : (sweepAux gen kill preds rest (st, false)).2 = false := by
        have : (decide ¬st l = st l) = false := by simp
        simpa [this] using h
      obtain ⟨h1, h2⟩ := ih st h'
      refine ⟨?_, ?_⟩
      · rw [sweepPure_cons, hupd]; exact h1
      · intro m hm
        rcases List.mem_cons.mp hm with hm | hm
        · subst hm; exact hd
        · exact h2 m hm
    · exfalso
      have : (false || decide (transfer gen kill preds st l ≠ st l)) = true := by
        simp [hd]
      rw [this] at h
      rw [sweepAux_flag_mono gen kill preds rest] at h
      cases h

/-- Conversely, at a state satisfying all the dataflow equations the sweep
reports no change. -/
theorem sweepAux_ofFix (L : List Str) : ∀ (st : Str → Finset ℕ),
    (∀ l ∈ L, transfer gen kill preds st l = st l) →
    sweepAux gen kill preds L (st, false) = (st, false) := by
  induction L with
  | nil => intro st _; rfl
  | cons l rest ih =>
    intro st h
    rw [sweepAux_cons]
    have hd := h l (List.mem_cons_self l rest)
    have hupd : updOut gen kill preds st l = st := by
      funext x
      unfold updOut
      by_cases hx : x = l
      · subst hx; simp [hd]
      · simp [hx]
    rw [hupd, hd]
    have : (decide ¬st l = st l) = false := by simp
    simp only [decide_not, Bool.false_or, this]
    exact ih st (fun m hm => h m (List.mem_cons_of_mem l hm))

/-- A changed sweep strictly grows some visited label's `out`. -/
theorem sweepAux_changed (L : List Str) : ∀ (st : Str → Finset ℕ),
    solInv gen kill preds st →
    (sweepAux gen kill preds L (st, false)).2 = true →
    ∃ l ∈ L, st l ⊂ sweepPure gen kill preds L st l := by
  induction L with
  | nil => intro st _ h; cases h
  | cons l rest ih =>
    intro st hinv h
    rw [sweepAux_cons] at h
    by_cases hd : transfer gen kill preds st l = st l
    · have hupd : updOut gen kill preds st l = st := by
        funext x
        unfold updOut
        by_cases hx : x = l
        · subst hx; simp [hd]
        · simp [hx]
      rw [hupd, hd] at h
      have : (decide ¬st l = st l) = false := by simp
      simp only [decide_not, Bool.false_or, this] at h
      obtain ⟨m, hm, hlt⟩ := ih st hinv h
      refine ⟨m, List.mem_cons_of_mem l hm, ?_⟩
      rw [sweepPure_cons, hupd]
      exact hlt
    · refine ⟨l, List.mem_cons_self l rest, ?_⟩
      have h1 : st l ⊂ transfer gen kill preds st l :=
        Finset.ssubset_iff_subset_ne.mpr ⟨hinv l, fun he => hd he.symm⟩
      have h2 : transfer gen kill preds st l ⊆ sweepPure gen kill preds (l :: rest) st l := by
        rw [sweepPure_cons]
        have hv : updOut gen kill preds st l l = transfer gen kill preds st l := by
          unfold updOut; simp
        calc transfer gen kill preds st l
            = updOut gen kill preds st l l := hv.symm
          _ ⊆ _ := sweepPure_infl gen kill preds rest (updOut_inv gen kill preds hinv l) l
      exact Finset.ssubset_of_ssubset_of_subset h1 h2

end Solver

/-! ### Termination of the sweep loop -/

/-- All `out` sets live inside the universe `D` of definition ids. -/
def ubState (D : Finset ℕ) (s : Str → Finset ℕ) : Prop := ∀ l, s l ⊆ D

/-- Total size of the `out` sets over the visited labels. -/
def solMeasure (L : List Str) (s : Str → Finset ℕ) : ℕ :=
  ∑ l ∈ L.toFinset, (s l).card

section SolverBound

variable (gen kill : Str → Finset ℕ) (preds : Str → Finset Str)

theorem transfer_ub {D : Finset ℕ} (hgen : ∀ l, gen l ⊆ D) {s : Str → Finset ℕ}
    (hub : ubState D s) (l : Str) : transfer gen kill preds s l ⊆ D := by
  unfold transfer
  apply Finset.union_subset (hgen l)
  apply Finset.Subset.trans (Finset.sdiff_subset)
  exact Finset.sup_le (fun p _ => hub p)

theorem updOut_ub {D : Finset ℕ} (hgen : ∀ l, gen l ⊆ D) {s : Str → Finset ℕ}
    (hub : ubState D s) (l : Str) : ubState D (updOut gen kill preds s l) := by
  intro x
  unfold updOut
  by_cases hx : x = l
  · subst hx; simp only [if_pos rfl]
    exact transfer_ub gen kill preds hgen hub x
  · simp only [if_neg hx]; exact hub x

theorem sweepPure_ub {D : Finset ℕ} (hgen : ∀ l, gen l ⊆ D) (L : List Str) :
    ∀ {s : Str → Finset ℕ}, ubState D s → ubState D (sweepPure gen kill preds L s) := by
  induction L with
  | nil => intro s h; exact h
  | cons l rest ih =>
    intro s h
    rw [sweepPure_cons]
    exact ih (updOut_ub gen kill preds hgen h l)

theorem solMeasure_le_of_stLE (L : List Str) {s t : Str → Finset ℕ} (h : stLE s t) :
    solMeasure L s ≤ solMeasure L t :=
  Finset.sum_le_sum (fun l _ => Finset.card_le_card (h l))

theorem solMeasure_bound (L : List Str) {D : Finset ℕ} {s : Str → Finset ℕ}
    (hub : ubState D s) : solMeasure L s ≤ L.toFinset.card * D.card := by
  calc solMeasure L s ≤ ∑ _l ∈ L.toFinset, D.card :=
        Finset.sum_le_sum (fun l _ => Finset.card_le_card (hub l))
    _ = L.toFinset.card * D.card := by rw [Finset.sum_const, smul_eq_mul]

theorem solMeasure_lt_of_changed (L : List Str) {s : Str → Finset ℕ}
    (hinv : solInv gen kill preds s)
    (h : (sweepAux gen kill preds L (s, false)).2 = true) :
    solMeasure L s < solMeasure L (sweepPure gen kill preds L s) := by
  obtain ⟨l, hl, hlt⟩ := sweepAux_changed gen kill preds L s hinv h
  apply Finset.sum_lt_sum
  · intro i _
    exact Finset.card_le_card (sweepPure_infl gen kill preds L hinv i)
  · exact ⟨l, List.mem_toFinset.mpr hl, Finset.card_lt_card hlt⟩

theorem solveLoop_succ (L : List Str) (fuel : ℕ) (st : Str → Finset ℕ) (cnt : ℕ) :
    solveLoop gen kill preds L (fuel + 1) st cnt =
      if (sweepAux gen kill preds L (st, false)).2 then
        solveLoop gen kill preds L fuel (sweepAux gen kill preds L (st, false)).1 (cnt + 1)
      else (cnt + 1, (sweepAux gen kill preds L (st, false)).1) := rfl

theorem solveLoop_step_true (L : List Str) {fuel : ℕ} {st : Str → Finset ℕ} {cnt : ℕ}
    (h : (sweepAux gen kill preds L (st, false)).2 = true) :
    solveLoop gen kill preds L (fuel + 1) st cnt =
      solveLoop gen kill preds L fuel (sweepPure gen kill preds L st) (cnt + 1) := by
  rw [solveLoop_succ, sweepAux_fst]
  simp [h]

theorem solveLoop_step_false (L : List Str) {fuel : ℕ} {st : Str → Finset ℕ} {cnt : ℕ}
    (h : (sweepAux gen kill preds L (st, false)).2 = false) :
    solveLoop gen kill preds L (fuel + 1) st cnt =
      (cnt + 1, sweepPure gen kill preds L st) := by
  rw [solveLoop_succ, sweepAux_fst]
  simp [h]

/-- With fuel `|labels| * |D| + 1 - measure` the loop exits through the
`changed = False` branch: the final state is a genuine fixed point of the
sweep, and the number of sweeps performed is bounded accordingly. -/
theorem solveLoop_spec {D : Finset ℕ} (hgen : ∀ l, gen l ⊆ D) (L : List Str) :
    ∀ (fuel : ℕ) (s : Str → Finset ℕ) (cnt : ℕ),
    solInv gen kill preds s → ubState D s →
    L.toFinset.card * D.card + 1 ≤ fuel + solMeasure L s →
    (sweepAux gen kill preds L ((solveLoop gen kill preds L fuel s cnt).2, false)).2 = false ∧
    (solveLoop gen kill preds L fuel s cnt).1 ≤
      cnt + (L.toFinset.card * D.card + 1 - solMeasure L s) := by
  intro fuel
  induction fuel with
  | zero =>
    intro s cnt hinv hub hfuel
    exfalso
    have := solMeasure_bound L hub
    omega
  | succ fuel ih =>
    intro s cnt hinv hub hfuel
    have hm := solMeasure_bound L hub
    rcases hch : (sweepAux gen kill preds L (s, false)).2 with _ | _
    · rw [solveLoop_step_false gen kill preds L hch]
      obtain ⟨hfix, _⟩ := sweepAux_noChange gen kill preds L s hch
      rw [hfix]
      exact ⟨hch, by omega⟩
    · rw [solveLoop_step_true gen kill preds L hch]
      have hlt := solMeasure_lt_of_changed gen kill preds L hinv hch
      have h1 := ih (sweepPure gen kill preds L s) (cnt + 1)
        (sweepPure_inv gen kill preds L hinv)
        (sweepPure_ub gen kill preds hgen L hub) (by omega)
      have hm2 := solMeasure_bound L
        (sweepPure_ub gen kill preds hgen L (s := s) hub)
      exact ⟨h1.1, by omega⟩

/-! ### The fixed point is the least one, independof the visiting order -/

theorem sweepPure_le_postfixpoint (L : List Str) : ∀ {s F : Str → Finset ℕ}, stLE s F →
    (∀ l ∈ L, transfer gen kill preds F l ⊆ F l) →
    stLE (sweepPure gen kill preds L s) F := by
  induction L with
  | nil => intro s F h _; exact h
  | cons l rest ih =>
    intro s F h hpf
    rw [sweepPure_cons]
    apply ih _ (fun m hm => hpf m (List.mem_cons_of_mem l hm))
    intro x
    unfold updOut
    by_cases hx : x = l
    · subst hx; simp only [if_pos rfl]
      exact Finset.Subset.trans (transfer_mono gen kill preds h x)
        (hpf x (List.mem_cons_self x rest))
    · simp only [if_neg hx]; exact h x

theorem solveLoop_le_postfixpoint (L : List Str) : ∀ (fuel : ℕ) {s : Str → Finset ℕ}
    (cnt : ℕ) {F : Str → Finset ℕ}, stLE s F →
    (∀ l ∈ L, transfer gen kill preds F l ⊆ F l) →
    stLE (solveLoop gen kill preds L fuel s cnt).2 F := by
  intro fuel
  induction fuel with
  | zero => intro s cnt F h _; exact h
  | succ fuel ih =>
    intro s cnt F h hpf
    rcases hch : (sweepAux gen kill preds L (s, false)).2 with _ | _
    · rw [solveLoop_step_false gen kill preds L hch]
      exact sweepPure_le_postfixpoint gen kill preds L h hpf
    · rw [solveLoop_step_true gen kill preds L hch]
      exact ih (cnt + 1) (sweepPure_le_postfixpoint gen kill preds L h hpf) hpf

end SolverBound

/-! ### Instantiation for the pipeline's gen/kill -/

/-- The universe of definition ids of a program. -/
def defIds (blocks : List (Str × List Str)) : Finset ℕ :=
  ((find_definitions blocks).map (·.id)).toFinset

theorem genOfBlock_subset (defs : List Defn) (bl : List Str) :
    genOfBlock defs bl ⊆ (defs.map (·.id)).toFinset := by
  intro x hx
  simp only [genOfBlock, List.mem_toFinset, List.mem_map] at hx
  obtain ⟨d, hd, hdx⟩ := hx
  simp only [List.mem_toFinset, List.mem_map]
  exact ⟨d, (List.mem_filter.mp hd).1, hdx⟩

theorem cgk_fst_ub (defs : List Defn) :
    ∀ (bs : List (Str × List Str)) (acc : (Str → Finset ℕ) × (Str → Finset ℕ)),
    (∀ l, acc.1 l ⊆ (defs.map (·.id)).toFinset) →
    ∀ l, (bs.foldl
      (fun (gk : (Str → Finset ℕ) × (Str → Finset ℕ)) (b : Str × List Str) =>
        ((fun l => if l = b.1 then genOfBlock defs b.2 else gk.1 l :
            Str → Finset ℕ),
         (fun l => if l = b.1 then killOfBlock defs b.2 else gk.2 l :
            Str → Finset ℕ))) acc).1 l ⊆
      (defs.map (·.id)).toFinset := by
  intro bs
  induction bs with
  | nil => intro acc h l; exact h l
  | cons b rest ih =>
    intro acc h l
    rw [List.foldl_cons]
    apply ih
    intro m
    by_cases hm : m = b.1
    · simp only [hm, if_pos rfl]
      exact genOfBlock_subset defs b.2
    · simp only [if_neg hm]
      exact h m

theorem rdGen_subset (blocks : List (Str × List Str)) (l : Str) :
    rdGen blocks l ⊆ defIds blocks := by
  unfold rdGen compute_gen_kill defIds
  exact cgk_fst_ub (find_definitions blocks) blocks _
    (fun m => Finset.empty_subset _) l

theorem solMeasure_bot (L : List Str) : solMeasure L (fun _ => ∅) = 0 := by
  unfold solMeasure
  simp

theorem defIds_card_le (blocks : List (Str × List Str)) :
    (defIds blocks).card ≤ (find_definitions blocks).length := by
  unfold defIds
  calc ((find_definitions blocks).map (·.id)).toFinset.card
      ≤ ((find_definitions blocks).map (·.id)).length := List.toFinset_card_le _
    _ = (find_definitions blocks).length := List.length_map _ _

/-- Main convergence fact for an arbitrary visiting order of the same length
as the block list: the loop's final state is a fixed point of the dataflow
equations at every visited label, and the sweep count is bounded. -/
theorem rdOrder_spec (blocks : List (Str × List Str)) (edges : List (Str × Str × Str))
    (order : List Str) (hlen : order.length = blocks.length) :
    (∀ l ∈ order,
      transfer (rdGen blocks) (rdKill blocks) (compute_predecessors blocks edges)
        (reaching_definitions_order blocks edges order).2 l =
      (reaching_definitions_order blocks edges order).2 l) ∧
    (reaching_definitions_order blocks edges order).1 ≤
      blocks.length * (find_definitions blocks).length + 1 := by
  have hcard : order.toFinset.card * (defIds blocks).card ≤
      blocks.length * (find_definitions blocks).length := by
    apply Nat.mul_le_mul
    · calc order.toFinset.card ≤ order.length := List.toFinset_card_le _
        _ = blocks.length := hlen
    · exact defIds_card_le blocks
  have hspec := solveLoop_spec (rdGen blocks) (rdKill blocks)
    (compute_predecessors blocks edges) (rdGen_subset blocks) order
    (rdFuel blocks) (fun _ => ∅) 0
    (solInv_bot _ _ _) (fun l => Finset.empty_subset _)
    (by rw [solMeasure_bot]; unfold rdFuel; omega)
  obtain ⟨hflag, hcnt⟩ := hspec
  constructor
  · exact (sweepAux_noChange _ _ _ order _ hflag).2
  · unfold reaching_definitions_order
    rw [solMeasure_bot] at hcnt
    omega

theorem reaching_definitions_eq_order (blocks : List (Str × List Str))
    (edges : List (Str × Str × Str)) :
    reaching_definitions blocks edges =
      reaching_definitions_order blocks edges (blocks.map Prod.fst) := rfl

/-- Any two visiting orders that are permutations of the block labels reach
the same final `out` map. -/
theorem rdOrder_unique (blocks : List (Str × List Str)) (edges : List (Str × Str × Str))
    (o1 o2 : List Str) (h1 : o1.Perm (blocks.map Prod.fst))
    (h2 : o2.Perm (blocks.map Prod.fst)) :
    (reaching_definitions_order blocks edges o1).2 =
      (reaching_definitions_order blocks edges o2).2 := by
  have hl1 : o1.length = blocks.length := by
    rw [h1.length_eq, List.length_map]
  have hl2 : o2.length = blocks.length := by
    rw [h2.length_eq, List.length_map]
  obtain ⟨hfix1, _⟩ := rdOrder_spec blocks edges o1 hl1
  obtain ⟨hfix2, _⟩ := rdOrder_spec blocks edges o2 hl2
  have hmem : ∀ l, l ∈ o1 ↔ l ∈ o2 := by
    intro l
    rw [h1.mem_iff, h2.mem_iff]
  have hle12 : stLE (reaching_definitions_order blocks edges o1).2
      (reaching_definitions_order blocks edges o2).2 := by
    apply solveLoop_le_postfixpoint _ _ _ o1 (rdFuel blocks) 0
      (stLE_bot _)
    intro l hl
    rw [hfix2 l ((hmem l).mp hl)]
  have hle21 : stLE (reaching_definitions_order blocks edges o2).2
      (reaching_definitions_order blocks edges o1).2 := by
    apply solveLoop_le_postfixpoint _ _ _ o2 (rdFuel blocks) 0
      (stLE_bot _)
    intro l hl
    rw [hfix1 l ((hmem l).mpr hl)]
  funext l
  exact Finset.Subset.antisymm (hle12 l) (hle21 l)

/-- Monotonicity of the sweep chain from the all-empty state (C2's content). -/
theorem rdIter_subset_succ (blocks : List (Str × List Str))
    (edges : List (Str × Str × Str)) (k : ℕ) (l : Str) :
    rdIter blocks edges k l ⊆ rdIter blocks edges (k + 1) l := by
  induction k generalizing l with
  | zero => exact Finset.empty_subset _
  | succ k ih =>
    show rdSweep blocks edges (rdIter blocks edges k) l ⊆
      rdSweep blocks edges (rdIter blocks edges (k + 1)) l
    exact sweepPure_mono _ _ _ _ (fun m => ih m) l

/-! ## Leaders and block partition facts (C7) -/


theorem setAdd_mem {x i : ℕ} {s : List ℕ} : x ∈ setAdd i s ↔ x = i ∨ x ∈ s := by
  unfold setAdd
  split_ifs with h
  · constructor
    · exact Or.inr
    · rintro (rfl | hx)
      · exact h
      · exact hx
  · exact List.mem_cons

theorem setAdd_subset (i : ℕ) (s : List ℕ) : s ⊆ setAdd i s := by
  intro x hx
  exact setAdd_mem.mpr (Or.inr hx)

theorem setAdd_nodup {i : ℕ} {s : List ℕ} (h : s.Nodup) : (setAdd i s).Nodup := by
  unfold setAdd
  split_ifs with hmem
  · exact h
  · exact List.nodup_cons.mpr ⟨hmem, h⟩

theorem flStep_subset (n i : ℕ) (line : Str) (s : List ℕ) : s ⊆ flStep n i line s := by
  unfold flStep
  intro x hx
  split_ifs <;> simp only [setAdd_mem] <;> tauto

theorem flStep_bound (n i : ℕ) (line : Str) (s : List ℕ)
    (hs : ∀ x ∈ s, x < n) (hi : i < n) : ∀ x ∈ flStep n i line s, x < n := by
  unfold flStep
  intro x hx
  split_ifs at hx <;> simp only [setAdd_mem] at hx <;>
    (try casesm* _ ∨ _) <;>
    first
      | omega
      | exact hs _ ‹_›

theorem flStep_nodup (n i : ℕ) (line : Str) {s : List ℕ} (h : s.Nodup) :
    (flStep n i line s).Nodup := by
  unfold flStep
  split_ifs <;> repeat first | assumption | apply setAdd_nodup

theorem flAux_subset (n : ℕ) : ∀ (ls : List Str) (i : ℕ) (s : List ℕ),
    s ⊆ flAux n ls i s := by
  intro ls
  induction ls with
  | nil => intro i s; exact fun x hx => hx
  | cons line rest ih =>
    intro i s
    rw [flAux]
    exact fun x hx => ih (i+1) _ (flStep_subset n i line s hx)

theorem flAux_bound (n : ℕ) : ∀ (ls : List Str) (i : ℕ) (s : List ℕ),
    i + ls.length ≤ n → (∀ x ∈ s, x < n) → ∀ x ∈ flAux n ls i s, x < n := by
  intro ls
  induction ls with
  | nil => intro i s _ hs x hx; exact hs x hx
  | cons line rest ih =>
    intro i s hlen hs x hx
    rw [flAux] at hx
    refine ih (i + 1) _ (by simp at hlen; omega) ?_ x hx
    exact flStep_bound n i line s hs (by simp at hlen; omega)

theorem flAux_nodup (n : ℕ) : ∀ (ls : List Str) (i : ℕ) {s : List ℕ},
    s.Nodup → (flAux n ls i s).Nodup := by
  intro ls
  induction ls with
  | nil => intro i s h; exact h
  | cons line rest ih =>
    intro i s h
    rw [flAux]
    exact ih (i+1) (flStep_nodup n i line h)

theorem find_leaders_perm (lines : List Str) :
    (find_leaders lines).Perm (flAux lines.length lines 0 [0]) :=
  List.perm_insertionSort (· ≤ ·) _

theorem find_leaders_zero_mem (lines : List Str) : 0 ∈ find_leaders lines := by
  rw [(find_leaders_perm lines).mem_iff]
  exact flAux_subset lines.length lines 0 [0] (List.mem_singleton_self 0)

theorem find_leaders_lt (lines : List Str) (h : lines ≠ []) :
    ∀ x ∈ find_leaders lines, x < lines.length := by
  intro x hx
  rw [(find_leaders_perm lines).mem_iff] at hx
  refine flAux_bound lines.length lines 0 [0] (by omega) ?_ x hx
  intro y hy
  rw [List.mem_singleton] at hy
  subst hy
  cases lines with
  | nil => exact absurd rfl h
  | cons a t => simp

theorem find_leaders_sorted (lines : List Str) :
    (find_leaders lines).Sorted (· < ·) := by
  have hle : (find_leaders lines).Sorted (· ≤ ·) :=
    List.sorted_insertionSort (· ≤ ·) _
  have hnd : (find_leaders lines).Nodup :=
    ((find_leaders_perm lines).nodup_iff).mpr
      (flAux_nodup lines.length lines 0 (by simp))
  exact List.Sorted.lt_of_le hle hnd

/-- The sorted leader list starts with 0. -/
theorem find_leaders_head (lines : List Str) :
    ∃ t, find_leaders lines = 0 :: t := by
  have h0 := find_leaders_zero_mem lines
  have hs := find_leaders_sorted lines
  cases hL : find_leaders lines with
  | nil => rw [hL] at h0; cases h0
  | cons a t =>
    rw [hL] at h0 hs
    rcases List.mem_cons.mp h0 with h | h
    · exact ⟨t, by rw [h]⟩
    · have := (List.sorted_cons.mp hs).1 0 h
      omega

theorem pySlice_append_drop (lines : List Str) (a b : ℕ) (hab : a ≤ b) :
    pySlice lines a b ++ lines.drop b = lines.drop a := by
  unfold pySlice
  have : lines.drop b = (lines.drop a).drop (b - a) := by
    rw [List.drop_drop]
    congr 1
    omega
  rw [this, List.take_append_drop]

theorem pySlice_ne_nil (lines : List Str) (a b : ℕ) (ha : a < b) (hlen : a < lines.length) :
    pySlice lines a b ≠ [] := by
  unfold pySlice
  intro hcon
  have h1 : ((lines.drop a).take (b - a)).length = min (b - a) (lines.drop a).length := by
    rw [List.length_take]
  rw [hcon] at h1
  rw [List.length_drop] at h1
  simp at h1
  omega

/-- Concatenating the blocks built from a strictly increasing leader chain
starting at `a` (all leaders below the line count) recovers `lines.drop a`. -/
theorem cbbAux_join (lines : List Str) :
    ∀ (L : List ℕ) (a : ℕ) (k : ℕ), (a :: L).Sorted (· < ·) →
    (∀ x ∈ a :: L, x < lines.length) →
    ((cbbAux lines (a :: L) k).map Prod.snd).flatten = lines.drop a := by
  intro L
  induction L with
  | nil =>
    intro a k _ hbound
    have ha : a < lines.length := hbound a (List.mem_cons_self a [])
    rw [cbbAux]
    have hslice : pySlice lines a lines.length = lines.drop a := by
      unfold pySlice
      have h1 : (lines.drop a).length = lines.length - a := List.length_drop a lines
      rw [← h1, List.take_length]
    have hne : ¬ (pySlice lines a lines.length).isEmpty = true := by
      rw [List.isEmpty_iff]
      exact pySlice_ne_nil lines a lines.length ha ha
    rw [if_neg hne]
    simp [hslice]
  | cons b rest ih =>
    intro a k hsort hbound
    have hab : a < b := (List.sorted_cons.mp hsort).1 b (List.mem_cons_self b rest)
    have ha : a < lines.length := hbound a (List.mem_cons_self a _)
    rw [cbbAux]
    have hne : ¬ (pySlice lines a b).isEmpty = true := by
      rw [List.isEmpty_iff]
      exact pySlice_ne_nil lines a b hab ha
    rw [if_neg hne]
    have htail := ih b (k + 1) (List.sorted_cons.mp hsort).2
      (fun x hx => hbound x (List.mem_cons_of_mem a hx))
    simp only [List.map_cons, List.flatten_cons]
    rw [htail]
    exact pySlice_append_drop lines a b (by omega)

/-- For non-empty preprocessed input, the blocks partition the line list. -/
theorem create_basic_blocks_partition (lines : List Str) (h : lines ≠ []) :
    ((create_basic_blocks lines (find_leaders lines)).map Prod.snd).flatten = lines := by
  obtain ⟨t, ht⟩ := find_leaders_head lines
  unfold create_basic_blocks
  rw [ht]
  have hsort := find_leaders_sorted lines
  rw [ht] at hsort
  have hbound := find_leaders_lt lines h
  rw [ht] at hbound
  rw [cbbAux_join lines t 0 0 hsort hbound]
  rfl

theorem create_basic_blocks_ne_nil (lines : List Str) (h : lines ≠ []) :
    create_basic_blocks lines (find_leaders lines) ≠ [] := by
  intro hcon
  have := create_basic_blocks_partition lines h
  rw [hcon] at this
  exact h (by simpa using this.symm)

/-! ## What the definition collector recognizes (C5) -/

theorem dropWhile_first_fail {a : Char} : ∀ {l : Str}, a ∈ l →
    ∃ rest, l.dropWhile (fun x => decide (x ≠ a)) = a :: rest := by
  intro l
  induction l with
  | nil => intro h; cases h
  | cons c t ih =>
    intro h
    by_cases hc : c = a
    · subst hc
      refine ⟨t, ?_⟩
      rw [List.dropWhile_cons]
      simp
    · rw [List.dropWhile_cons]
      have hdec : (decide (c ≠ a)) = true := by simp [hc]
      rw [if_pos hdec]
      have ha : a ∈ t := by
        rcases List.mem_cons.mp h with h1 | h1
        · exact absurd h1.symm hc
        · exact h1
      exact ih ha

theorem mem_takeWhile_sat (p : Char → Bool) : ∀ (l : Str) (x : Char),
    x ∈ l.takeWhile p → p x = true := by
  intro l
  induction l with
  | nil => intro x h; cases h
  | cons c t ih =>
    intro x h
    rw [List.takeWhile_cons] at h
    by_cases hc : p c
    · rw [if_pos hc] at h
      rcases List.mem_cons.mp h with h | h
      · subst h; exact hc
      · exact ih x h
    · rw [if_neg hc] at h; cases h

/-- Successful `tailMatches` yields the decomposition
`spaces ++ '=' ++ nonempty-run-without-semicolon ++ ';' ++ anything`. -/
theorem tailMatches_decomp {s : Str} (h : tailMatches s = true) :
    ∃ sp e rest, s = sp ++ '=' :: (e ++ ';' :: rest) ∧
      (∀ c ∈ sp, isPySpace c = true) ∧ e ≠ [] ∧ ';' ∉ e := by
  unfold tailMatches at h
  rcases hd : s.dropWhile isPySpace with _ | ⟨c0, r⟩
  · rw [hd] at h; cases h
  · rw [hd] at h
    dsimp only at h
    by_cases he : c0 = '='
    · subst he
      rw [if_pos rfl] at h
      rcases hr : r with _ | ⟨c, t⟩
      · rw [hr] at h; cases h
      · rw [hr] at h
        simp only [Bool.and_eq_true, decide_eq_true_eq] at h
        obtain ⟨hcne, hmem⟩ := h
        have hsemi : ';' ∈ c :: t := by
          simpa using hmem
        obtain ⟨rest, hrest⟩ := dropWhile_first_fail hsemi
        refine ⟨s.takeWhile isPySpace, (c :: t).takeWhile (fun x => decide (x ≠ ';')), rest,
          ?_, ?_, ?_, ?_⟩
        · conv_lhs => rw [← List.takeWhile_append_dropWhile (p := isPySpace) (l := s)]
          rw [hd, hr]
          congr 1
          rw [← hrest, List.takeWhile_append_dropWhile]
        · exact fun c hc => mem_takeWhile_sat isPySpace s c hc
        · rw [List.takeWhile_cons]
          have : (decide (c ≠ ';')) = true := by simp [hcne]
          rw [if_pos this]
          simp
        · intro hcon
          have := mem_takeWhile_sat (fun x => decide (x ≠ ';')) (c :: t) ';' hcon
          simp at this
    · rw [if_neg he] at h
      cases h

theorem tryLens_spec (s : Str) : ∀ (k : ℕ) (v : Str), tryLens s k = some v →
    ∃ j, 1 ≤ j ∧ j ≤ k ∧ v = s.take j ∧ tailMatches (s.drop j) = true := by
  intro k
  induction k with
  | zero => intro v h; cases h
  | succ k ih =>
    intro v h
    rw [tryLens] at h
    by_cases ht : tailMatches (s.drop (k+1)) = true
    · rw [if_pos ht] at h
      injection h with h
      exact ⟨k + 1, by omega, by omega, h.symm, ht⟩
    · rw [if_neg ht] at h
      obtain ⟨j, h1, h2, h3, h4⟩ := ih v h
      exact ⟨j, h1, by omega, h3, h4⟩

theorem take_takeWhile_eq (p : Char → Bool) : ∀ (l : Str) (j : ℕ),
    j ≤ (l.takeWhile p).length → l.take j = (l.takeWhile p).take j := by
  intro l
  induction l with
  | nil => intro j _; simp
  | cons c t ih =>
    intro j hj
    rcases j with _ | j
    · simp
    · rw [List.takeWhile_cons] at hj ⊢
      by_cases hc : p c
      · rw [if_pos hc] at hj ⊢
        rw [List.take_succ_cons, List.take_succ_cons]
        rw [List.length_cons] at hj
        rw [ih j (by omega)]
      · rw [if_neg hc] at hj
        simp at hj

theorem tryVarAt_spec {s v : Str} (h : tryVarAt s = some v) :
    ∃ j, 1 ≤ j ∧ v = s.take j ∧ tailMatches (s.drop j) = true ∧
      (∀ c ∈ v, isWordChar c = true) ∧
      (∃ c0 t, s = c0 :: t ∧ isIdentStart c0 = true) := by
  unfold tryVarAt at h
  rcases hs : s with _ | ⟨c0, t⟩
  · rw [hs] at h; cases h
  · rw [hs] at h
    dsimp only at h
    by_cases hc : isIdentStart c0 = true
    · rw [if_pos hc] at h
      obtain ⟨j, hj1, hjle, hjtake, hjtail⟩ := tryLens_spec (c0 :: t) _ v h
      refine ⟨j, hj1, hjtake, hjtail, ?_, c0, t, rfl, hc⟩
      intro c hcv
      rw [hjtake] at hcv
      rw [take_takeWhile_eq isWordChar (c0 :: t) j hjle] at hcv
      exact mem_takeWhile_sat isWordChar (c0 :: t) c (List.mem_of_mem_take hcv)
    · rw [if_neg hc] at h
      cases h

theorem matchAux_spec (line : Str) : ∀ (k : ℕ) (v : Str), matchAux line k = some v →
    ∃ a, tryVarAt (line.drop a) = some v := by
  intro k
  induction k with
  | zero => intro v h; exact ⟨0, by simpa [matchAux] using h⟩
  | succ k ih =>
    intro v h
    rw [matchAux] at h
    rcases ht : tryVarAt (line.drop (k+1)) with _ | w
    · rw [ht] at h
      exact ih v h
    · rw [ht] at h
      injection h with h
      subst h
      exact ⟨k + 1, ht⟩

/-- What `matchAssign` recognizes: the line decomposes as
`anything ++ var ++ spaces ++ '=' ++ non-semicolon-run ++ ';' ++ anything`
where `var` is a non-empty identifier (letter or underscore, then word
characters).  The prefix `pre` is arbitrary, so the left-hand side of the
assignment need not be a bare identifier. -/
theorem matchAssign_decomp {line v : Str} (h : matchAssign line = some v) :
    ∃ pre sp e rest, line = pre ++ (v ++ (sp ++ '=' :: (e ++ ';' :: rest))) ∧
      v ≠ [] ∧ (∀ c ∈ v, isWordChar c = true) ∧
      (∃ c0 t, v = c0 :: t ∧ isIdentStart c0 = true) ∧
      (∀ c ∈ sp, isPySpace c = true) ∧ e ≠ [] ∧ ';' ∉ e := by
  obtain ⟨a, ha⟩ := matchAux_spec line _ v h
  obtain ⟨j, hj1, hj2, hj3, hword, c0, t, hct, hc0⟩ := tryVarAt_spec ha
  obtain ⟨sp, e, rest, hsplit, hsp, hene, hsemi⟩ := tailMatches_decomp hj3
  refine ⟨line.take a, sp, e, rest, ?_, ?_, hword, ?_, hsp, hene, hsemi⟩
  · conv_lhs => rw [← List.take_append_drop a line]
    congr 1
    conv_lhs => rw [← List.take_append_drop j (line.drop a)]
    rw [← hj2, ← hsplit]
  · rw [hj2, hct]
    intro hcon
    have : j = 0 := by
      have := congrArg List.length hcon
      simp at this
      omega
    omega
  · rw [hj2, hct]
    rcases j with _ | j
    · omega
    · exact ⟨c0, (t.take j), rfl, hc0⟩

/-! ### Membership in `find_definitions` -/

theorem fdLines_mem (lbl : Str) : ∀ (lines : List Str) (cnt : ℕ) (d : Defn),
    d ∈ (fdLines lbl lines cnt).1 →
    d.block = lbl ∧ d.line ∈ lines ∧ matchAssign d.line = some d.var := by
  intro lines
  induction lines with
  | nil => intro cnt d h; cases h
  | cons line rest ih =>
    intro cnt d h
    rw [fdLines] at h
    rcases hm : matchAssign line with _ | w
    · rw [hm] at h
      obtain ⟨h1, h2, h3⟩ := ih cnt d h
      exact ⟨h1, List.mem_cons_of_mem line h2, h3⟩
    · rw [hm] at h
      dsimp only at h
      rcases List.mem_cons.mp h with h | h
      · subst h
        exact ⟨rfl, List.mem_cons_self _ _, by simpa using hm⟩
      · obtain ⟨h1, h2, h3⟩ := ih (cnt + 1) d h
        exact ⟨h1, List.mem_cons_of_mem line h2, h3⟩

theorem find_definitions_mem {blocks : List (Str × List Str)} {d : Defn}
    (h : d ∈ find_definitions blocks) :
    ∃ lbl bl, (lbl, bl) ∈ blocks ∧ d.block = lbl ∧ d.line ∈ bl ∧
      matchAssign d.line = some d.var := by
  unfold find_definitions at h
  -- generalize the running counter
  suffices hgen : ∀ (bs : List (Str × List Str)) (cnt : ℕ), d ∈ fdBlocks bs cnt →
      ∃ lbl bl, (lbl, bl) ∈ bs ∧ d.block = lbl ∧ d.line ∈ bl ∧
        matchAssign d.line = some d.var by
    exact hgen blocks 1 h
  intro bs
  induction bs with
  | nil => intro cnt hh; cases hh
  | cons b rest ih =>
    intro cnt hh
    rw [fdBlocks] at hh
    rcases List.mem_append.mp hh with hh | hh
    · obtain ⟨h1, h2, h3⟩ := fdLines_mem b.1 b.2 cnt d hh
      exact ⟨b.1, b.2, by simp, h1, h2, h3⟩
    · obtain ⟨lbl, bl, h1, h2, h3, h4⟩ := ih _ hh
      exact ⟨lbl, bl, List.mem_cons_of_mem b h1, h2, h3, h4⟩


/-! ## Where plain (unlabeled) edges come from (C4) -/

theorem mem_loop_edges {lbl : Str} {o1 o2 : Option Str} {e : Str × Str × Str}
    (he : e ∈ (match o1 with
      | some nx =>
        [(lbl, nx, str "true"), (nx, lbl, str "back")] ++
        (match o2 with
         | some n2 => [(lbl, n2, str "false (exit)")]
         | none => [])
      | none => ([] : List (Str × Str × Str)))) : e.2.2 ≠ [] := by
  rcases o1 with _ | nx
  · cases he
  · rcases o2 with _ | n2 <;>
      simp only [List.mem_append, List.mem_cons, List.mem_singleton,
        List.not_mem_nil, or_false] at he
    · rcases he with rfl | rfl <;> simp [str]
    · rcases he with (rfl | rfl) | rfl <;> simp [str]

theorem mem_cond_edges {lbl : Str} {o1 o2 : Option Str} {e : Str × Str × Str}
    (he : e ∈ ((match o1 with
        | some nx => [(lbl, nx, str "true")]
        | none => ([] : List (Str × Str × Str))) ++
      (match o2 with
        | some n2 => [(lbl, n2, str "false")]
        | none => ([] : List (Str × Str × Str))))) : e.2.2 ≠ [] := by
  rcases List.mem_append.mp he with h | h
  · rcases o1 with _ | nx
    · cases h
    · simp only [List.mem_singleton] at h
      subst h; simp [str]
  · rcases o2 with _ | n2
    · cases h
    · simp only [List.mem_singleton] at h
      subst h; simp [str]

theorem mem_plain_edges {lbl : Str} {o1 : Option Str} {e : Str × Str × Str}
    (he : e ∈ (match o1 with
      | some nx => [(lbl, nx, ([] : Str))]
      | none => ([] : List (Str × Str × Str)))) : e.1 = lbl := by
  rcases o1 with _ | nx
  · cases he
  · simp only [List.mem_singleton] at he
    subst he; rfl


/-- Every unlabeled edge produced by the classification loop comes from its
own source block, via the else rule (`else` in the text) or the sequential
rule (no `return` in the text). -/
theorem ceAux_plain : ∀ (bs : List (Str × List Str)) (dec : Finset Str)
    (e : Str × Str × Str), e ∈ ceAux bs dec → e.2.2 = [] →
    ∃ bl, (e.1, bl) ∈ bs ∧
      (strContains (str "else") (joinSp bl) = true ∨
       strContains (str "return") (joinSp bl) = false) := by
  intro bs
  induction bs with
  | nil => intro dec e he _; cases he
  | cons b rest ih =>
    obtain ⟨lbl0, bl0⟩ := b
    intro dec e he hplain
    simp only [ceAux] at he
    split_ifs at he with h1 h2 h3 h4 h5
    · rcases List.mem_append.mp he with he | he
      · exact absurd hplain (mem_loop_edges he)
      · obtain ⟨bl, hmem, hp⟩ := ih _ e he hplain
        exact ⟨bl, List.mem_cons_of_mem _ hmem, hp⟩
    · rcases List.mem_append.mp he with he | he
      · exact absurd hplain (mem_cond_edges he)
      · obtain ⟨bl, hmem, hp⟩ := ih _ e he hplain
        exact ⟨bl, List.mem_cons_of_mem _ hmem, hp⟩
    · rcases List.mem_append.mp he with he | he
      · have := mem_plain_edges he
        exact ⟨bl0, by rw [this]; simp, Or.inl h3⟩
      · obtain ⟨bl, hmem, hp⟩ := ih _ e he hplain
        exact ⟨bl, List.mem_cons_of_mem _ hmem, hp⟩
    · rcases List.mem_append.mp he with he | he
      · have := mem_plain_edges he
        refine ⟨bl0, by rw [this]; simp, Or.inr ?_⟩
        simp only [Bool.and_eq_true, Bool.not_eq_true'] at h4
        exact h4.1
      · obtain ⟨bl, hmem, hp⟩ := ih _ e he hplain
        exact ⟨bl, List.mem_cons_of_mem _ hmem, hp⟩
    · rw [List.nil_append] at he
      obtain ⟨bl, hmem, hp⟩ := ih _ e he hplain
      exact ⟨bl, List.mem_cons_of_mem _ hmem, hp⟩
    · obtain ⟨bl, hmem, hp⟩ := ih _ e he hplain
      exact ⟨bl, List.mem_cons_of_mem _ hmem, hp⟩

/-- With distinct labels, a label determines its block. -/
theorem nodup_fst_eq : ∀ {bs : List (Str × List Str)},
    (bs.map Prod.fst).Nodup → ∀ {l : Str} {a b : List Str},
    (l, a) ∈ bs → (l, b) ∈ bs → a = b := by
  intro bs
  induction bs with
  | nil => intro _ l a b ha _; cases ha
  | cons p rest ih =>
    obtain ⟨pl, pa⟩ := p
    intro hnd l a b ha hb
    rw [List.map_cons, List.nodup_cons] at hnd
    rcases List.mem_cons.mp ha with ha | ha <;> rcases List.mem_cons.mp hb with hb | hb
    · injection ha with ha1 ha2
      injection hb with hb1 hb2
      rw [ha2, hb2]
    · exfalso
      apply hnd.1
      injection ha with ha1 _
      rw [← ha1]
      exact List.mem_map.mpr ⟨(l, b), hb, rfl⟩
    · exfalso
      apply hnd.1
      injection hb with hb1 _
      rw [← hb1]
      exact List.mem_map.mpr ⟨(l, a), ha, rfl⟩
    · exact ih hnd.2 ha hb

/-! ## Idempotence of the preprocessor (C6)

`rc` is the identity on text with no `//` pair and no `/*` that is followed
(anywhere later) by `*/`; the output of `rc` has that shape; and splitting,
stripping, filtering and rejoining with newlines preserves it.  The scanners
below recognize the two dangerous patterns. -/

/-- Does the string begin with the two characters `a`, `b`? -/
def startsPair (a b : Char) : Str → Bool
  | x :: y :: _ => decide (x = a) && decide (y = b)
  | _ => false

/-- Does the string contain `a` immediately followed by `b`? -/
def hasPair (a b : Char) : Str → Bool
  | [] => false
  | s@(_ :: r) => startsPair a b s || hasPair a b r

/-- Does the string begin with `/*` that has a matching `*/` later? -/
def startsOTC : Str → Bool
  | x :: y :: t => decide (x = '/') && decide (y = '*') && hasPair '*' '/' t
  | _ => false

/-- Does the string contain `/*` with `*/` somewhere after it (the shape the
block-comment regex alternative matches)? -/
def otc : Str → Bool
  | [] => false
  | s@(_ :: r) => startsOTC s || otc r

/-- Text on which the comment regex finds nothing. -/
def goodStr (s : Str) : Prop := hasPair '/' '/' s = false ∧ otc s = false

theorem hasPair_cons (a b c : Char) (r : Str) :
    hasPair a b (c :: r) = (startsPair a b (c :: r) || hasPair a b r) := rfl

theorem otc_cons (c : Char) (r : Str) :
    otc (c :: r) = (startsOTC (c :: r) || otc r) := rfl

theorem startsPair_iff (a b : Char) (s : Str) :
    startsPair a b s = true ↔ ∃ v, s = a :: b :: v := by
  constructor
  · intro h
    match s, h with
    | x :: y :: v, h =>
      simp only [startsPair, Bool.and_eq_true, decide_eq_true_eq] at h
      exact ⟨v, by rw [h.1, h.2]⟩
  · rintro ⟨v, rfl⟩
    simp [startsPair]

theorem hasPair_iff (a b : Char) : ∀ s : Str,
    hasPair a b s = true ↔ ∃ u v, s = u ++ a :: b :: v := by
  intro s
  induction s with
  | nil => simp [hasPair]
  | cons c r ih =>
    rw [hasPair_cons]
    constructor
    · intro h
      rcases Bool.or_eq_true_iff.mp h with h | h
      · obtain ⟨v, hv⟩ := (startsPair_iff a b (c :: r)).mp h
        exact ⟨[], v, hv⟩
      · obtain ⟨u, v, hv⟩ := ih.mp h
        exact ⟨c :: u, v, by rw [hv]; rfl⟩
    · rintro ⟨u, v, hv⟩
      rcases u with _ | ⟨u0, u'⟩
      · simp only [List.nil_append] at hv
        rw [hv]
        simp [startsPair]
      · injection hv with h1 h2
        apply Bool.or_eq_true_iff.mpr
        exact Or.inr (ih.mpr ⟨u', v, h2⟩)

theorem startsOTC_iff (s : Str) :
    startsOTC s = true ↔ ∃ v, s = '/' :: '*' :: v ∧ hasPair '*' '/' v = true := by
  constructor
  · intro h
    match s, h with
    | x :: y :: v, h =>
      simp only [startsOTC, Bool.and_eq_true, decide_eq_true_eq] at h
      exact ⟨v, by rw [h.1.1, h.1.2], h.2⟩
  · rintro ⟨v, rfl, hv⟩
    simp [startsOTC, hv]

theorem otc_iff : ∀ s : Str,
    otc s = true ↔ ∃ u v, s = u ++ '/' :: '*' :: v ∧ hasPair '*' '/' v = true := by
  intro s
  induction s with
  | nil => simp [otc]
  | cons c r ih =>
    rw [otc_cons]
    constructor
    · intro h
      rcases Bool.or_eq_true_iff.mp h with h | h
      · obtain ⟨v, hv, hc⟩ := (startsOTC_iff (c :: r)).mp h
        exact ⟨[], v, hv, hc⟩
      · obtain ⟨u, v, hv, hc⟩ := ih.mp h
        exact ⟨c :: u, v, by rw [hv]; rfl, hc⟩
    · rintro ⟨u, v, hv, hc⟩
      rcases u with _ | ⟨u0, u'⟩
      · simp only [List.nil_append] at hv
        rw [hv]
        apply Bool.or_eq_true_iff.mpr
        exact Or.inl ((startsOTC_iff _).mpr ⟨v, rfl, hc⟩)
      · injection hv with h1 h2
        apply Bool.or_eq_true_iff.mpr
        exact Or.inr (ih.mpr ⟨u', v, h2, hc⟩)

/-- `hasPair` is monotone under embedding as an infix. -/
theorem hasPair_within (a b : Char) {m : Str} (u v : Str)
    (h : hasPair a b m = true) : hasPair a b (u ++ m ++ v) = true := by
  obtain ⟨p, q, hm⟩ := (hasPair_iff a b m).mp h
  apply (hasPair_iff a b _).mpr
  exact ⟨u ++ p, q ++ v, by rw [hm]; simp⟩

theorem otc_within {m : Str} (u v : Str) (h : otc m = true) :
    otc (u ++ m ++ v) = true := by
  obtain ⟨p, q, hm, hc⟩ := (otc_iff m).mp h
  apply (otc_iff _).mpr
  refine ⟨u ++ p, q ++ v, by rw [hm]; simp, ?_⟩
  obtain ⟨x, y, hq⟩ := (hasPair_iff _ _ q).mp hc
  apply (hasPair_iff _ _ _).mpr
  exact ⟨x, y ++ v, by rw [hq]; simp⟩

theorem goodStr_infix {m : Str} (u v : Str) (h : goodStr (u ++ m ++ v)) : goodStr m := by
  obtain ⟨h1, h2⟩ := h
  constructor
  · by_contra hcon
    rw [Bool.not_eq_false] at hcon
    rw [hasPair_within _ _ u v hcon] at h1
    cases h1
  · by_contra hcon
    rw [Bool.not_eq_false] at hcon
    rw [otc_within u v hcon] at h2
    cases h2

/-- A two-character pattern not involving `'\n'` inside `x ++ '\n' :: y` lies
entirely inside `x` or entirely inside `y`. -/
theorem pair_split {c1 c2 : Char} (h1 : c1 ≠ '\n') (h2 : c2 ≠ '\n') :
    ∀ (x : Str) (y u v : Str), x ++ '\n' :: y = u ++ c1 :: c2 :: v →
    (∃ p q, x = p ++ c1 :: c2 :: q ∧ v = q ++ '\n' :: y) ∨
    (∃ p q, y = p ++ c1 :: c2 :: q ∧ u = x ++ '\n' :: p ∧ v = q) := by
  intro x
  induction x with
  | nil =>
    intro y u v heq
    rcases u with _ | ⟨u0, u'⟩
    · simp only [List.nil_append] at heq
      injection heq with ha _
      exact absurd ha.symm h1
    · simp only [List.nil_append, List.cons_append] at heq
      injection heq with ha hb
      exact Or.inr ⟨u', v, hb, by rw [← ha]; rfl, rfl⟩
  | cons d x' ih =>
    intro y u v heq
    rcases u with _ | ⟨u0, u'⟩
    · simp only [List.nil_append, List.cons_append] at heq
      injection heq with ha hb
      rcases x' with _ | ⟨e, x''⟩
      · simp only [List.nil_append] at hb
        injection hb with hc _
        exact absurd hc.symm h2
      · simp only [List.cons_append] at hb
        injection hb with hc hd
        refine Or.inl ⟨[], x'', ?_, hd.symm⟩
        rw [List.nil_append, ha, hc]
    · simp only [List.cons_append] at heq
      injection heq with ha hb
      rcases ih y u' v hb with ⟨p, q, hx, hv⟩ | ⟨p, q, hy, hu, hv⟩
      · exact Or.inl ⟨d :: p, q, by rw [hx]; rfl, hv⟩
      · exact Or.inr ⟨p, q, hy, by rw [ha, hu]; rfl, hv⟩

theorem hasPair_nl_split {a b : Char} (ha : a ≠ '\n') (hb : b ≠ '\n') {x y : Str}
    (h : hasPair a b (x ++ '\n' :: y) = true) :
    hasPair a b x = true ∨ hasPair a b y = true := by
  obtain ⟨u, v, heq⟩ := (hasPair_iff a b _).mp h
  rcases pair_split ha hb x y u v heq with ⟨p, q, hx, _⟩ | ⟨p, q, hy, _, _⟩
  · exact Or.inl ((hasPair_iff a b x).mpr ⟨p, q, hx⟩)
  · exact Or.inr ((hasPair_iff a b y).mpr ⟨p, q, hy⟩)

theorem goodStr_nl_left {x y : Str} (h : goodStr (x ++ '\n' :: y)) : goodStr x :=
  goodStr_infix [] ('\n' :: y) (by simpa using h)

theorem goodStr_nl_right {x y : Str} (h : goodStr (x ++ '\n' :: y)) : goodStr y := by
  apply goodStr_infix (x ++ ['\n']) []
  have : (x ++ ['\n']) ++ y ++ [] = x ++ '\n' :: y := by simp
  rw [this]
  exact h

/-- In good text, an opener in the part before a newline excludes a closer in
the part after it. -/
theorem goodStr_nl_cross {x y : Str} (h : goodStr (x ++ '\n' :: y))
    (hopen : hasPair '/' '*' x = true) : hasPair '*' '/' y = false := by
  by_contra hcon
  rw [Bool.not_eq_false] at hcon
  obtain ⟨u, v, hx⟩ := (hasPair_iff _ _ x).mp hopen
  have hbig : otc (x ++ '\n' :: y) = true := by
    apply (otc_iff _).mpr
    refine ⟨u, v ++ '\n' :: y, by rw [hx]; simp, ?_⟩
    obtain ⟨p, q, hy⟩ := (hasPair_iff _ _ y).mp hcon
    apply (hasPair_iff _ _ _).mpr
    exact ⟨v ++ '\n' :: p, q, by rw [hy]; simp⟩
  rw [h.2] at hbig
  cases hbig

/-- Joining two good pieces with a newline is good, provided an opener on the
left is not answered by a closer on the right. -/
theorem goodStr_join {x y : Str} (hx : goodStr x) (hy : goodStr y)
    (hcross : hasPair '/' '*' x = true → hasPair '*' '/' y = false) :
    goodStr (x ++ '\n' :: y) := by
  constructor
  · by_contra h
    rw [Bool.not_eq_false] at h
    rcases hasPair_nl_split (by decide) (by decide) h with h | h
    · rw [hx.1] at h; cases h
    · rw [hy.1] at h; cases h
  · by_contra h
    rw [Bool.not_eq_false] at h
    obtain ⟨u, v, heq, hc⟩ := (otc_iff _).mp h
    rcases pair_split (by decide) (by decide) x y u v heq
      with ⟨p, q, hxeq, hveq⟩ | ⟨p, q, hyeq, _, hveq⟩
    · rw [hveq] at hc
      rcases hasPair_nl_split (by decide) (by decide) hc with hc | hc
      · have := (otc_iff x).mpr ⟨p, q, hxeq, hc⟩
        rw [hx.2] at this; cases this
      · have hop : hasPair '/' '*' x = true := (hasPair_iff _ _ x).mpr ⟨p, q, hxeq⟩
        rw [hcross hop] at hc
        cases hc
    · rw [hveq] at hc
      have := (otc_iff y).mpr ⟨p, q, hyeq, hc⟩
      rw [hy.2] at this; cases this

/-! ### Equations and structural facts about `rc` -/

theorem rc_nil : rc [] = [] := by rw [rc]

theorem rc_single (c : Char) : rc [c] = [c] := by rw [rc]

theorem rc_dslash (r : Str) :
    rc ('/' :: '/' :: r) = rc (r.dropWhile (fun x => decide (x ≠ '\n'))) := by
  rw [rc]; simp

theorem rc_cons_ne (c d : Char) (r : Str) (h1 : ¬(c = '/' ∧ d = '/'))
    (h2 : ¬(c = '/' ∧ d = '*')) : rc (c :: d :: r) = c :: rc (d :: r) := by
  rw [rc]
  have e1 : (decide (c = '/') && decide (d = '/')) = false := by
    rw [Bool.and_eq_false_iff]
    by_cases hc : c = '/'
    · refine Or.inr ?_
      simp only [decide_eq_false_iff_not]
      exact fun hd => h1 ⟨hc, hd⟩
    · exact Or.inl (by simp [hc])
  have e2 : (decide (c = '/') && decide (d = '*')) = false := by
    rw [Bool.and_eq_false_iff]
    by_cases hc : c = '/'
    · refine Or.inr ?_
      simp only [decide_eq_false_iff_not]
      exact fun hd => h2 ⟨hc, hd⟩
    · exact Or.inl (by simp [hc])
  rw [e1, e2]
  simp

theorem rc_open_some {r u : Str} (h : afterClose r = some u) :
    rc ('/' :: '*' :: r) = rc u := by
  rw [rc]
  simp only [decide_eq_true_eq]
  rw [if_neg (by simp), if_pos (by simp)]
  split
  · rename_i u' hu'
    rw [h] at hu'
    injection hu' with hu'
    rw [hu']
  · rename_i hu'
    rw [h] at hu'
    cases hu'

theorem rc_open_none {r : Str} (h : afterClose r = none) :
    rc ('/' :: '*' :: r) = '/' :: rc ('*' :: r) := by
  rw [rc]
  simp only [decide_eq_true_eq]
  rw [if_neg (by simp), if_pos (by simp)]
  split
  · rename_i u' hu'
    rw [h] at hu'
    cases hu'
  · rfl

theorem rc_cons_of_ne (c : Char) (r : Str) (hc : c ≠ '/') :
    rc (c :: r) = c :: rc r := by
  rcases r with _ | ⟨d, r'⟩
  · rw [rc_single, rc_nil]
  · exact rc_cons_ne c d r' (fun h => hc h.1) (fun h => hc h.1)

/-- If the comment-stripped text starts with `/`, so did the input. -/
theorem rc_head_slash : ∀ (t u : Str), rc t = '/' :: u → ∃ w, t = '/' :: w := by
  intro t
  match t with
  | [] => intro u h; rw [rc_nil] at h; cases h
  | [c] =>
    intro u h
    rw [rc_single] at h
    injection h with h1 _
    exact ⟨[], by rw [h1]⟩
  | c :: d :: r =>
    intro u h
    by_cases hc : c = '/'
    · exact ⟨d :: r, by rw [hc]⟩
    · rw [rc_cons_ne c d r (fun hh => hc hh.1) (fun hh => hc hh.1)] at h
      injection h with h1 _
      exact absurd h1 hc

theorem afterClose_some_hasPair : ∀ {r u : Str}, afterClose r = some u →
    hasPair '*' '/' r = true := by
  intro r
  induction r with
  | nil => intro u h; cases h
  | cons x t ih =>
    intro u h
    rcases t with _ | ⟨y, t'⟩
    · rw [afterClose] at h; cases h
    · rw [afterClose] at h
      split at h
      · rename_i hxy
        simp only [Bool.and_eq_true, decide_eq_true_eq] at hxy
        rw [hasPair_cons]
        apply Bool.or_eq_true_iff.mpr
        apply Or.inl
        rw [startsPair_iff]
        exact ⟨t', by rw [hxy.1, hxy.2]⟩
      · rw [hasPair_cons]
        apply Bool.or_eq_true_iff.mpr
        exact Or.inr (ih h)

theorem afterClose_none_of_no_close {r : Str} (h : hasPair '*' '/' r = false) :
    afterClose r = none := by
  rcases hc : afterClose r with _ | u
  · rfl
  · rw [afterClose_some_hasPair hc] at h
    cases h

/-- `rc` cannot create a `*/` out of text that has none. -/
theorem rc_no_close : ∀ (r : Str), hasPair '*' '/' r = false →
    hasPair '*' '/' (rc r) = false := by
  intro r
  induction r using rc.induct with
  | case1 => intro h; rw [rc_nil]; exact h
  | case2 c => intro h; rw [rc_single]; exact h
  | case3 c d r hcd ih =>
    intro h
    simp only [Bool.and_eq_true, decide_eq_true_eq] at hcd
    rw [hcd.1, hcd.2]
    rw [rc_dslash]
    apply ih
    -- the suffix obtained by dropWhile has no close either
    have htail : hasPair '*' '/' r = false := by
      rw [hcd.1, hcd.2] at h
      rw [hasPair_cons] at h
      rcases Bool.or_eq_false_iff.mp h with ⟨_, h⟩
      rw [hasPair_cons] at h
      exact (Bool.or_eq_false_iff.mp h).2
    clear h ih hcd
    induction r with
    | nil => simpa using htail
    | cons x t iht =>
      rw [List.dropWhile_cons]
      have htail2 : hasPair '*' '/' t = false := by
        rw [hasPair_cons] at htail
        exact (Bool.or_eq_false_iff.mp htail).2
      by_cases hx : (decide (x ≠ '\n')) = true
      · rw [if_pos hx]
        exact iht htail2
      · rw [if_neg hx]
        exact htail
  | case4 c d r hcd1 hcd2 u hu ih =>
    intro h
    simp only [Bool.and_eq_true, decide_eq_true_eq] at hcd2
    rw [hcd2.1, hcd2.2] at h
    exfalso
    have := afterClose_some_hasPair hu
    rw [hasPair_cons] at h
    rcases Bool.or_eq_false_iff.mp h with ⟨_, h⟩
    rw [hasPair_cons] at h
    rcases Bool.or_eq_false_iff.mp h with ⟨hst, h⟩
    rw [this] at h
    cases h
  | case5 c d r hcd1 hcd2 hnone ih =>
    intro h
    simp only [Bool.and_eq_true, decide_eq_true_eq] at hcd2
    obtain ⟨hc2a, hc2b⟩ := hcd2
    subst hc2a
    subst hc2b
    rw [rc_open_none hnone]
    have htail : hasPair '*' '/' ('*' :: r) = false := by
      rw [hasPair_cons] at h
      exact (Bool.or_eq_false_iff.mp h).2
    have hr : hasPair '*' '/' r = false := by
      rw [hasPair_cons] at htail
      exact (Bool.or_eq_false_iff.mp htail).2
    have hrec := ih htail
    rw [rc_cons_of_ne '*' r (by decide)] at hrec ⊢
    rw [hasPair_cons]
    apply Bool.or_eq_false_iff.mpr
    refine ⟨?_, hrec⟩
    -- the pair ('/', '*') is not ('*', '/')
    rcases hshape : ('*' : Char) :: rc r with _ | ⟨z, zs⟩
    · simp [startsPair]
    · injection hshape with hz hzs
      rw [startsPair]
      simp [← hz]
  | case6 c d r hcd1 hcd2 ih =>
    intro h
    have hcne1 : ¬(c = '/' ∧ d = '/') := by
      intro hh
      rw [hh.1, hh.2] at hcd1
      simp at hcd1
    have hcne2 : ¬(c = '/' ∧ d = '*') := by
      intro hh
      rw [hh.1, hh.2] at hcd2
      simp at hcd2
    rw [rc_cons_ne c d r hcne1 hcne2]
    have hst : startsPair '*' '/' (c :: d :: r) = false := by
      rw [hasPair_cons] at h
      exact (Bool.or_eq_false_iff.mp h).1
    have htail : hasPair '*' '/' (d :: r) = false := by
      rw [hasPair_cons] at h
      exact (Bool.or_eq_false_iff.mp h).2
    have hrec := ih htail
    rw [hasPair_cons]
    apply Bool.or_eq_false_iff.mpr
    refine ⟨?_, hrec⟩
    -- head pair of c :: rc (d :: r) is (c, head of rc (d :: r))
    rcases hshape : rc (d :: r) with _ | ⟨z, zs⟩
    · simp [startsPair]
    · rw [startsPair]
      simp only [Bool.and_eq_false_iff]
      by_cases hcstar : c = '*'
      · -- then z ≠ '/', else d = '/' and the input pair (c, d) was (*, /)
        right
        simp only [decide_eq_false_iff_not]
        intro hz
        subst hz
        obtain ⟨w, hw⟩ := rc_head_slash (d :: r) zs hshape
        injection hw with hd _
        rw [startsPair] at hst
        rw [hcstar, ← hd] at hst
        simp at hst
      · left
        simp [hcstar]

theorem startsPair_cons₂ (a b x y : Char) (t : Str) :
    startsPair a b (x :: y :: t) = (decide (x = a) && decide (y = b)) := rfl

theorem startsOTC_cons₂ (x y : Char) (t : Str) :
    startsOTC (x :: y :: t) =
      (decide (x = '/') && decide (y = '*') && hasPair '*' '/' t) := rfl

theorem startsPair_head_ne (a b c : Char) (w : Str) (h : c ≠ a) :
    startsPair a b (c :: w) = false := by
  rcases w with _ | ⟨z, zs⟩
  · rfl
  · rw [startsPair_cons₂]
    simp [h]

theorem startsOTC_head_ne (c : Char) (w : Str) (h : c ≠ '/') :
    startsOTC (c :: w) = false := by
  rcases w with _ | ⟨z, zs⟩
  · rfl
  · rw [startsOTC_cons₂]
    simp [h]

theorem goodStr_tail {c : Char} {r : Str} (h : goodStr (c :: r)) : goodStr r :=
  goodStr_infix [c] [] (by simpa using h)

theorem goodStr_nil : goodStr [] := ⟨rfl, rfl⟩

theorem goodStr_single (c : Char) : goodStr [c] := by
  constructor
  · rw [hasPair_cons]
    rcases hc : startsPair '/' '/' [c] with _ | _
    · rfl
    · cases hc
  · rw [otc_cons]
    rcases hc : startsOTC [c] with _ | _
    · rfl
    · cases hc

theorem hasPair_afterClose : ∀ {r : Str}, hasPair '*' '/' r = true →
    ∃ u, afterClose r = some u := by
  intro r
  induction r with
  | nil => intro h; cases h
  | cons x t ih =>
    intro h
    rw [hasPair_cons] at h
    rcases Bool.or_eq_true_iff.mp h with h | h
    · obtain ⟨v, hv⟩ := (startsPair_iff _ _ _).mp h
      injection hv with h1 h2
      subst h1
      subst h2
      refine ⟨v, ?_⟩
      rw [afterClose]
      simp
    · rcases t with _ | ⟨y, t'⟩
      · cases h
      · obtain ⟨u, hu⟩ := ih h
        by_cases hxy : (decide (x = '*') && decide (y = '/')) = true
        · exact ⟨t', by rw [afterClose, if_pos hxy]⟩
        · exact ⟨u, by rw [afterClose, if_neg hxy]; exact hu⟩

/-- The output of comment removal contains no `//` and no opened-and-closed
block comment: the regex finds nothing on it. -/
theorem rc_good : ∀ s : Str, goodStr (rc s) := by
  intro s
  induction s using rc.induct with
  | case1 => rw [rc_nil]; exact goodStr_nil
  | case2 c => rw [rc_single]; exact goodStr_single c
  | case3 c d r hcd ih =>
    simp only [Bool.and_eq_true, decide_eq_true_eq] at hcd
    rw [hcd.1, hcd.2, rc_dslash]
    exact ih
  | case4 c d r hcd1 hcd2 u hu ih =>
    simp only [Bool.and_eq_true, decide_eq_true_eq] at hcd2
    rw [hcd2.1, hcd2.2, rc_open_some hu]
    exact ih
  | case5 c d r hcd1 hcd2 hnone ih =>
    simp only [Bool.and_eq_true, decide_eq_true_eq] at hcd2
    obtain ⟨hc2a, hc2b⟩ := hcd2
    subst hc2a
    subst hc2b
    rw [rc_open_none hnone]
    rw [rc_cons_of_ne '*' r (by decide)] at ih ⊢
    have hclose : hasPair '*' '/' (rc r) = false := by
      apply rc_no_close
      by_contra hcon
      rw [Bool.not_eq_false] at hcon
      obtain ⟨u, hu⟩ := hasPair_afterClose hcon
      rw [hu] at hnone
      cases hnone
    constructor
    · rw [hasPair_cons, startsPair_cons₂]
      simp only [Bool.or_eq_false_iff]
      refine ⟨by simp, ?_⟩
      rw [hasPair_cons]
      simp only [Bool.or_eq_false_iff]
      exact ⟨startsPair_head_ne _ _ _ _ (by decide), by
        have := ih.1
        rw [hasPair_cons] at this
        exact (Bool.or_eq_false_iff.mp this).2⟩
    · rw [otc_cons, startsOTC_cons₂]
      simp only [Bool.or_eq_false_iff]
      refine ⟨by simp [hclose], ?_⟩
      exact ih.2
  | case6 c d r hcd1 hcd2 ih =>
    have hcne1 : ¬(c = '/' ∧ d = '/') := by
      intro hh; rw [hh.1, hh.2] at hcd1; simp at hcd1
    have hcne2 : ¬(c = '/' ∧ d = '*') := by
      intro hh; rw [hh.1, hh.2] at hcd2; simp at hcd2
    rw [rc_cons_ne c d r hcne1 hcne2]
    by_cases hc : c = '/'
    · -- then d is neither '/' nor '*'
      have hd1 : d ≠ '/' := fun hh => hcne1 ⟨hc, hh⟩
      have hd2 : d ≠ '*' := fun hh => hcne2 ⟨hc, hh⟩
      rw [rc_cons_of_ne d r hd1] at ih ⊢
      constructor
      · rw [hasPair_cons, startsPair_cons₂]
        simp only [Bool.or_eq_false_iff]
        exact ⟨by simp [hd1], ih.1⟩
      · rw [otc_cons, startsOTC_cons₂]
        simp only [Bool.or_eq_false_iff]
        exact ⟨by simp [hd2], ih.2⟩
    · constructor
      · rw [hasPair_cons]
        simp only [Bool.or_eq_false_iff]
        exact ⟨startsPair_head_ne _ _ _ _ hc, ih.1⟩
      · rw [otc_cons]
        simp only [Bool.or_eq_false_iff]
        exact ⟨startsOTC_head_ne _ _ hc, ih.2⟩

/-- Comment removal is the identity on text the regex does not match. -/
theorem rc_id_of_good : ∀ s : Str, goodStr s → rc s = s := by
  intro s
  induction s using rc.induct with
  | case1 => intro _; rw [rc_nil]
  | case2 c => intro _; rw [rc_single]
  | case3 c d r hcd ih =>
    intro hg
    exfalso
    simp only [Bool.and_eq_true, decide_eq_true_eq] at hcd
    obtain ⟨hca, hcb⟩ := hcd
    subst hca
    subst hcb
    have := hg.1
    rw [hasPair_cons, startsPair_cons₂] at this
    simp at this
  | case4 c d r hcd1 hcd2 u hu ih =>
    intro hg
    exfalso
    simp only [Bool.and_eq_true, decide_eq_true_eq] at hcd2
    obtain ⟨hca, hcb⟩ := hcd2
    subst hca
    subst hcb
    have hcl := afterClose_some_hasPair hu
    have := hg.2
    rw [otc_cons, startsOTC_cons₂] at this
    simp [hcl] at this
  | case5 c d r hcd1 hcd2 hnone ih =>
    intro hg
    simp only [Bool.and_eq_true, decide_eq_true_eq] at hcd2
    obtain ⟨hca, hcb⟩ := hcd2
    subst hca
    subst hcb
    rw [rc_open_none hnone, ih (goodStr_tail hg)]
  | case6 c d r hcd1 hcd2 ih =>
    intro hg
    have hcne1 : ¬(c = '/' ∧ d = '/') := by
      intro hh; rw [hh.1, hh.2] at hcd1; simp at hcd1
    have hcne2 : ¬(c = '/' ∧ d = '*') := by
      intro hh; rw [hh.1, hh.2] at hcd2; simp at hcd2
    rw [rc_cons_ne c d r hcne1 hcne2, ih (goodStr_tail hg)]

/-! ### Transporting goodness through split / strip / filter / join -/

theorem strip_decomp (l : Str) : ∃ u v, l = u ++ strip l ++ v := by
  refine ⟨l.takeWhile isPySpace,
    ((l.dropWhile isPySpace).reverse.takeWhile isPySpace).reverse, ?_⟩
  unfold strip
  conv_lhs => rw [← List.takeWhile_append_dropWhile (p := isPySpace) (l := l)]
  rw [List.append_assoc]
  congr 1
  conv_lhs => rw [← List.reverse_reverse (l.dropWhile isPySpace),
    ← List.takeWhile_append_dropWhile (p := isPySpace)
      (l := (l.dropWhile isPySpace).reverse)]
  rw [List.reverse_append]

theorem goodStr_strip {l : Str} (h : goodStr l) : goodStr (strip l) := by
  obtain ⟨u, v, hl⟩ := strip_decomp l
  rw [hl] at h
  exact goodStr_infix u v h

theorem hasPair_strip_mono (a b : Char) {l : Str}
    (h : hasPair a b (strip l) = true) : hasPair a b l = true := by
  obtain ⟨u, v, hl⟩ := strip_decomp l
  rw [hl]
  exact hasPair_within a b u v h

theorem splitNL_struct : ∀ s : Str, ('\n' ∉ s ∧ splitNL s = [s]) ∨
    ∃ a b, s = a ++ '\n' :: b ∧ '\n' ∉ a ∧ splitNL s = a :: splitNL b := by
  intro s
  induction s with
  | nil => exact Or.inl ⟨by simp, rfl⟩
  | cons c r ih =>
    by_cases hc : c = '\n'
    · subst hc
      refine Or.inr ⟨[], r, rfl, by simp, ?_⟩
      rw [splitNL]
      simp
    · rcases ih with ⟨hnn, heq⟩ | ⟨a, b, hs, hna, heq⟩
      · refine Or.inl ⟨?_, ?_⟩
        · intro hmem
          rcases List.mem_cons.mp hmem with hm | hm
          · exact hc hm.symm
          · exact hnn hm
        · rw [splitNL, if_neg hc, heq]
      · refine Or.inr ⟨c :: a, b, by rw [hs]; rfl, ?_, ?_⟩
        · intro hmem
          rcases List.mem_cons.mp hmem with hm | hm
          · exact hc hm.symm
          · exact hna hm
        · rw [splitNL, if_neg hc, heq]

/-- The per-line part of the preprocessor (everything except comment
removal): split, strip, drop empty and brace-only lines. -/
def ppLines (s : Str) : List Str := ((splitNL s).map strip).filter keepLine

theorem preprocess_code_eq (code : Str) : preprocess_code code = ppLines (rc code) := rfl

theorem ppLines_no_nl (s : Str) (h : '\n' ∉ s) :
    ppLines s = if keepLine (strip s) then [strip s] else [] := by
  unfold ppLines
  rcases splitNL_struct s with ⟨_, heq⟩ | ⟨a, b, hs, hna, _⟩
  · rw [heq]
    rw [List.map_cons, List.map_nil, List.filter]
    rcases hk : keepLine (strip s) with _ | _
    · simp
    · simp
  · exfalso
    apply h
    rw [hs]
    simp

theorem ppLines_split {s a b : Str} (hs : s = a ++ '\n' :: b) (hna : '\n' ∉ a)
    (heq : splitNL s = a :: splitNL b) :
    ppLines s = if keepLine (strip a) then strip a :: ppLines b else ppLines b := by
  unfold ppLines
  rw [heq, List.map_cons, List.filter]
  rcases hk : keepLine (strip a) with _ | _
  · simp
  · simp

theorem joinNL_nil : joinNL [] = [] := by rw [joinNL]

theorem joinNL_single (l : Str) : joinNL [l] = l := by rw [joinNL]

theorem joinNL_cons₂ (l m : Str) (ls : List Str) :
    joinNL (l :: m :: ls) = l ++ '\n' :: joinNL (m :: ls) := by rw [joinNL]

theorem hasPair_nil (a b : Char) : hasPair a b [] = false := by rw [hasPair]

theorem hasPair_nl_right_mono (a b : Char) (x y : Str) (h : hasPair a b y = true) :
    hasPair a b (x ++ '\n' :: y) = true := by
  have hx := hasPair_within a b (x ++ ['\n']) [] h
  rw [List.append_nil, List.append_assoc] at hx
  simpa using hx

theorem hasPair_nl_left_mono (a b : Char) (x y : Str) (h : hasPair a b x = true) :
    hasPair a b (x ++ '\n' :: y) = true := by
  have hx := hasPair_within a b [] ('\n' :: y) h
  simpa using hx

/-- Splitting, stripping, filtering and rejoining good text leaves it good,
and creates no new `/*` or `*/` pairs. -/
theorem good_transport : ∀ (n : ℕ) (s : Str), s.length ≤ n → goodStr s →
    goodStr (joinNL (ppLines s)) ∧
    (hasPair '/' '*' (joinNL (ppLines s)) = true → hasPair '/' '*' s = true) ∧
    (hasPair '*' '/' (joinNL (ppLines s)) = true → hasPair '*' '/' s = true) := by
  intro n
  induction n with
  | zero =>
    intro s hlen hg
    have hnil : s = [] := by
      cases s
      · rfl
      · simp at hlen
    subst hnil
    have hpp : ppLines [] = [] := by rfl
    rw [hpp, joinNL_nil]
    refine ⟨goodStr_nil, ?_, ?_⟩ <;>
      · intro h
        rw [hasPair_nil] at h
        cases h
  | succ n ih =>
    intro s hlen hg
    rcases splitNL_struct s with ⟨hnn, _⟩ | ⟨a, b, hs, hna, heq⟩
    · rw [ppLines_no_nl s hnn]
      by_cases hk : keepLine (strip s) = true
      · rw [if_pos hk, joinNL_single]
        exact ⟨goodStr_strip hg, hasPair_strip_mono _ _, hasPair_strip_mono _ _⟩
      · rw [if_neg hk, joinNL_nil]
        refine ⟨goodStr_nil, ?_, ?_⟩ <;>
          · intro h
            rw [hasPair_nil] at h
            cases h
    · subst hs
      have hblen : b.length ≤ n := by
        rw [List.length_append, List.length_cons] at hlen
        omega
      have hgb : goodStr b := goodStr_nl_right hg
      have hga : goodStr a := goodStr_nl_left hg
      obtain ⟨ihg, ihopen, ihclose⟩ := ih b hblen hgb
      rw [ppLines_split rfl hna heq]
      by_cases hk : keepLine (strip a) = true
      · rw [if_pos hk]
        rcases hpb : ppLines b with _ | ⟨m, ls⟩
        · rw [joinNL_single]
          exact ⟨goodStr_strip hga,
            fun h => hasPair_nl_left_mono _ _ a b (hasPair_strip_mono _ _ h),
            fun h => hasPair_nl_left_mono _ _ a b (hasPair_strip_mono _ _ h)⟩
        · rw [joinNL_cons₂, ← hpb]
          have hcross : hasPair '/' '*' (strip a) = true →
              hasPair '*' '/' (joinNL (ppLines b)) = false := by
            intro hopen
            have hoa : hasPair '/' '*' a = true := hasPair_strip_mono _ _ hopen
            have hcb : hasPair '*' '/' b = false := goodStr_nl_cross hg hoa
            by_contra hcon
            rw [Bool.not_eq_false] at hcon
            rw [ihclose hcon] at hcb
            cases hcb
          refine ⟨goodStr_join (goodStr_strip hga) ihg hcross, ?_, ?_⟩
          · intro h
            rcases hasPair_nl_split (by decide) (by decide) h with h | h
            · exact hasPair_nl_left_mono _ _ a b (hasPair_strip_mono _ _ h)
            · exact hasPair_nl_right_mono _ _ a b (ihopen h)
          · intro h
            rcases hasPair_nl_split (by decide) (by decide) h with h | h
            · exact hasPair_nl_left_mono _ _ a b (hasPair_strip_mono _ _ h)
            · exact hasPair_nl_right_mono _ _ a b (ihclose h)
      · rw [if_neg hk]
        exact ⟨ihg,
          fun h => hasPair_nl_right_mono _ _ a b (ihopen h),
          fun h => hasPair_nl_right_mono _ _ a b (ihclose h)⟩

/-! ### `strip` is idempotent; `splitNL` inverts `joinNL` -/

theorem dropWhile_head_not (p : Char → Bool) :
    ∀ (l : Str) {c : Char} {t' : Str}, l.dropWhile p = c :: t' → p c = false := by
  intro l
  induction l with
  | nil => intro c t' h; cases h
  | cons x xs ih =>
    intro c t' h
    rw [List.dropWhile_cons] at h
    by_cases hx : p x = true
    · rw [if_pos hx] at h
      exact ih h
    · rw [if_neg hx] at h
      injection h with h1 _
      rw [← h1]
      exact Bool.not_eq_true _ |>.mp hx

theorem dropWhile_self_of_head (p : Char → Bool) (l : Str)
    (h : ∀ c t, l = c :: t → p c = false) : l.dropWhile p = l := by
  rcases l with _ | ⟨c, t⟩
  · rfl
  · rw [List.dropWhile_cons, if_neg]
    rw [h c t rfl]
    simp

theorem dropWhile_idem (p : Char → Bool) (l : Str) :
    (l.dropWhile p).dropWhile p = l.dropWhile p := by
  apply dropWhile_self_of_head
  intro c t h
  exact dropWhile_head_not p l h

/-- The strip result is a prefix of `dropWhile isPySpace`. -/
theorem strip_prefix_dropWhile (l : Str) :
    ∃ v, l.dropWhile isPySpace = strip l ++ v := by
  refine ⟨((l.dropWhile isPySpace).reverse.takeWhile isPySpace).reverse, ?_⟩
  unfold strip
  conv_lhs => rw [← List.reverse_reverse (l.dropWhile isPySpace),
    ← List.takeWhile_append_dropWhile (p := isPySpace)
      (l := (l.dropWhile isPySpace).reverse)]
  rw [List.reverse_append]

theorem strip_head_not (l : Str) : ∀ c t, strip l = c :: t → isPySpace c = false := by
  intro c t h
  obtain ⟨v, hv⟩ := strip_prefix_dropWhile l
  rw [h] at hv
  exact dropWhile_head_not isPySpace l (by rw [hv, List.cons_append])

theorem strip_strip (l : Str) : strip (strip l) = strip l := by
  have h1 : (strip l).dropWhile isPySpace = strip l :=
    dropWhile_self_of_head isPySpace (strip l) (strip_head_not l)
  show (((strip l).dropWhile isPySpace).reverse.dropWhile isPySpace).reverse = strip l
  rw [h1]
  unfold strip
  rw [List.reverse_reverse]
  rw [dropWhile_idem]

/-- Characters of `strip l` are characters of `l`. -/
theorem mem_strip {l : Str} {x : Char} (h : x ∈ strip l) : x ∈ l := by
  obtain ⟨u, v, hl⟩ := strip_decomp l
  rw [hl]
  simp only [List.mem_append]
  exact Or.inl (Or.inr h)

theorem splitNL_of_no_nl {l : Str} (h : '
' ∉ l) : splitNL l = [l] := by
  rcases splitNL_struct l with ⟨_, heq⟩ | ⟨a, b, hs, _, _⟩
  · exact heq
  · exfalso
    apply h
    rw [hs]
    simp

theorem splitNL_append_nl : ∀ (l : Str) (w : Str), '
' ∉ l →
    splitNL (l ++ '
' :: w) = l :: splitNL w := by
  intro l
  induction l with
  | nil =>
    intro w _
    rw [List.nil_append, splitNL]
    simp
  | cons c l' ih =>
    intro w h
    have hc : ¬ c = '
' := fun hh => h (by rw [hh]; exact List.mem_cons_self _ _)
    rw [List.cons_append, splitNL, if_neg hc,
      ih w (fun hh => h (List.mem_cons_of_mem c hh))]

theorem splitNL_joinNL : ∀ (L : List Str), L ≠ [] → (∀ l ∈ L, '
' ∉ l) →
    splitNL (joinNL L) = L := by
  intro L
  induction L with
  | nil => intro h _; exact absurd rfl h
  | cons l ls ih =>
    intro _ hmem
    rcases ls with _ | ⟨m, ls'⟩
    · rw [joinNL_single]
      exact splitNL_of_no_nl (hmem l (List.mem_cons_self _ _))
    · rw [joinNL_cons₂,
        splitNL_append_nl l (joinNL (m :: ls')) (hmem l (List.mem_cons_self _ _)),
        ih (by simp) (fun x hx => hmem x (List.mem_cons_of_mem l hx))]

theorem splitNL_mem_no_nl : ∀ (n : ℕ) (s : Str), s.length ≤ n →
    ∀ l ∈ splitNL s, '
' ∉ l := by
  intro n
  induction n with
  | zero =>
    intro s hlen l hmem
    have hnil : s = [] := by
      cases s
      · rfl
      · simp at hlen
    subst hnil
    have : splitNL [] = [[]] := rfl
    rw [this] at hmem
    simp only [List.mem_singleton] at hmem
    subst hmem
    simp
  | succ n ih =>
    intro s hlen l hmem
    rcases splitNL_struct s with ⟨hnn, heq⟩ | ⟨a, b, hs, hna, heq⟩
    · rw [heq] at hmem
      simp only [List.mem_singleton] at hmem
      subst hmem
      exact hnn
    · rw [heq] at hmem
      rcases List.mem_cons.mp hmem with hm | hm
      · subst hm; exact hna
      · subst hs
        have hblen : b.length ≤ n := by
          rw [List.length_append, List.length_cons] at hlen
          omega
        exact ih b hblen l hm

/-- Elements of `ppLines s` are stripped, kept, and newline-free. -/
theorem ppLines_mem {s l : Str} (h : l ∈ ppLines s) :
    strip l = l ∧ keepLine l = true ∧ '
' ∉ l := by
  unfold ppLines at h
  rw [List.mem_filter] at h
  obtain ⟨h1, h2⟩ := h
  rw [List.mem_map] at h1
  obtain ⟨m, hm, hml⟩ := h1
  refine ⟨?_, h2, ?_⟩
  · rw [← hml, strip_strip]
  · intro hcon
    rw [← hml] at hcon
    exact splitNL_mem_no_nl s.length s le_rfl m hm (mem_strip hcon)

/-- The preprocessor is idempotent (C6). -/
theorem preprocess_code_idem (code : Str) :
    preprocess_code (joinNL (preprocess_code code)) = preprocess_code code := by
  rw [preprocess_code_eq, preprocess_code_eq]
  have hgood : goodStr (joinNL (ppLines (rc code))) :=
    (good_transport (rc code).length (rc code) le_rfl (rc_good code)).1
  rw [rc_id_of_good _ hgood]
  rcases hL : ppLines (rc code) with _ | ⟨l0, ls⟩
  · rw [joinNL_nil]
    rfl
  · rw [← hL]
    have hne : ppLines (rc code) ≠ [] := by rw [hL]; simp
    have hnl : ∀ l ∈ ppLines (rc code), '
' ∉ l :=
      fun l hl => (ppLines_mem hl).2.2
    show ppLines (joinNL (ppLines (rc code))) = ppLines (rc code)
    have hsplit : splitNL (joinNL (ppLines (rc code))) = ppLines (rc code) :=
      splitNL_joinNL (ppLines (rc code)) hne hnl
    have hmap : (ppLines (rc code)).map strip = ppLines (rc code) := by
      conv_rhs => rw [← List.map_id (ppLines (rc code))]
      apply List.map_congr_left
      intro a ha
      exact (ppLines_mem ha).1
    have hfilter : (ppLines (rc code)).filter keepLine = ppLines (rc code) :=
      List.filter_eq_self.mpr (fun a ha => (ppLines_mem ha).2.1)
    calc ppLines (joinNL (ppLines (rc code)))
        = (((splitNL (joinNL (ppLines (rc code)))).map strip).filter keepLine) := rfl
      _ = (((ppLines (rc code)).map strip).filter keepLine) := by rw [hsplit]
      _ = ((ppLines (rc code)).filter keepLine) := by rw [hmap]
      _ = ppLines (rc code) := hfilter

/-! ## gen/kill lookups by label (C9) -/

theorem cgk_foldl_notmem (defs : List Defn) :
    ∀ (bs : List (Str × List Str)) (acc : (Str → Finset ℕ) × (Str → Finset ℕ)) (l : Str),
    l ∉ bs.map Prod.fst →
    (bs.foldl
      (fun (gk : (Str → Finset ℕ) × (Str → Finset ℕ)) (b : Str × List Str) =>
        ((fun x => if x = b.1 then genOfBlock defs b.2 else gk.1 x :
            Str → Finset ℕ),
         (fun x => if x = b.1 then killOfBlock defs b.2 else gk.2 x :
            Str → Finset ℕ))) acc).1 l = acc.1 l := by
  intro bs
  induction bs with
  | nil => intro acc l _; rfl
  | cons b rest ih =>
    intro acc l hl
    rw [List.map_cons] at hl
    rw [List.foldl_cons, ih]
    · simp only []
      rw [if_neg (fun hh => hl (by rw [hh]; exact List.mem_cons_self _ _))]
    · exact fun hh => hl (List.mem_cons_of_mem _ hh)

/-- With distinct labels, `compute_gen_kill` maps a block's label to the gen
set computed from that block's lines. -/
theorem cgk_fst_at (defs : List Defn) :
    ∀ (bs : List (Str × List Str)) (acc : (Str → Finset ℕ) × (Str → Finset ℕ))
      (lbl : Str) (bl : List Str),
    (bs.map Prod.fst).Nodup → (lbl, bl) ∈ bs →
    (bs.foldl
      (fun (gk : (Str → Finset ℕ) × (Str → Finset ℕ)) (b : Str × List Str) =>
        ((fun x => if x = b.1 then genOfBlock defs b.2 else gk.1 x :
            Str → Finset ℕ),
         (fun x => if x = b.1 then killOfBlock defs b.2 else gk.2 x :
            Str → Finset ℕ))) acc).1 lbl = genOfBlock defs bl := by
  intro bs
  induction bs with
  | nil => intro acc lbl bl _ hmem; cases hmem
  | cons b rest ih =>
    intro acc lbl bl hnd hmem
    rw [List.map_cons, List.nodup_cons] at hnd
    rw [List.foldl_cons]
    rcases List.mem_cons.mp hmem with hm | hm
    · subst hm
      rw [cgk_foldl_notmem defs rest _ lbl hnd.1]
      simp
    · exact ih _ lbl bl hnd.2 hm

theorem rdGen_at {blocks : List (Str × List Str)} {lbl : Str} {bl : List Str}
    (hnd : (blocks.map Prod.fst).Nodup) (hmem : (lbl, bl) ∈ blocks) :
    rdGen blocks lbl = genOfBlock (find_definitions blocks) bl := by
  unfold rdGen compute_gen_kill
  exact cgk_fst_at (find_definitions blocks) blocks _ lbl bl hnd hmem

theorem mem_genOfBlock {defs : List Defn} {bl : List Str} {d : Defn}
    (hd : d ∈ defs) (hline : d.line ∈ bl) : d.id ∈ genOfBlock defs bl := by
  unfold genOfBlock
  rw [List.mem_toFinset, List.mem_map]
  refine ⟨d, List.mem_filter.mpr ⟨hd, ?_⟩, rfl⟩
  simpa using hline

/-! ## A fuel-driven evaluator for `rc` (for computing concrete instances) -/

def rcF : ℕ → Str → Str
  | 0, _ => []
  | _ + 1, [] => []
  | _ + 1, [c] => [c]
  | fuel + 1, c :: d :: r =>
    if c = '/' && d = '/' then rcF fuel (r.dropWhile (fun x => decide (x ≠ '\n')))
    else if c = '/' && d = '*' then
      match afterClose r with
      | some u => rcF fuel u
      | none => c :: rcF fuel (d :: r)
    else c :: rcF fuel (d :: r)

theorem rcF_eq : ∀ (s : Str) (fuel : ℕ), s.length ≤ fuel → rcF fuel s = rc s := by
  intro s
  induction s using rc.induct with
  | case1 =>
    intro fuel _
    rw [rc_nil]
    cases fuel <;> rfl
  | case2 c =>
    intro fuel h
    rcases fuel with _ | f
    · simp at h
    · rw [rc_single]; rfl
  | case3 c d r hcd ih =>
    intro fuel h
    rcases fuel with _ | f
    · simp at h
    · simp only [Bool.and_eq_true, decide_eq_true_eq] at hcd
      obtain ⟨hca, hcb⟩ := hcd
      subst hca
      subst hcb
      rw [rc_dslash, rcF]
      rw [if_pos (by simp)]
      apply ih
      have := dropWhile_length_le (fun x => decide (x ≠ '\n')) r
      simp only [List.length_cons] at h
      omega
  | case4 c d r hcd1 hcd2 u hu ih =>
    intro fuel h
    rcases fuel with _ | f
    · simp at h
    · simp only [Bool.and_eq_true, decide_eq_true_eq] at hcd2
      obtain ⟨hca, hcb⟩ := hcd2
      subst hca
      subst hcb
      rw [rc_open_some hu, rcF]
      rw [if_neg (by simp), if_pos (by simp), hu]
      apply ih
      have := afterClose_length hu
      simp only [List.length_cons] at h
      omega
  | case5 c d r hcd1 hcd2 hnone ih =>
    intro fuel h
    rcases fuel with _ | f
    · simp at h
    · simp only [Bool.and_eq_true, decide_eq_true_eq] at hcd2
      obtain ⟨hca, hcb⟩ := hcd2
      subst hca
      subst hcb
      rw [rc_open_none hnone, rcF]
      rw [if_neg (by simp), if_pos (by simp), hnone]
      rw [ih]
      simp only [List.length_cons] at h ⊢
      omega
  | case6 c d r hcd1 hcd2 ih =>
    intro fuel h
    rcases fuel with _ | f
    · simp at h
    · have hcne1 : ¬(c = '/' ∧ d = '/') := by
        intro hh; rw [hh.1, hh.2] at hcd1; simp at hcd1
      have hcne2 : ¬(c = '/' ∧ d = '*') := by
        intro hh; rw [hh.1, hh.2] at hcd2; simp at hcd2
      rw [rc_cons_ne c d r hcne1 hcne2, rcF]
      have e1 : (decide (c = '/') && decide (d = '/')) = false := by
        rw [Bool.and_eq_false_iff]
        by_cases hc : c = '/'
        · refine Or.inr ?_
          simp only [decide_eq_false_iff_not]
          exact fun hd => hcne1 ⟨hc, hd⟩
        · exact Or.inl (by simp [hc])
      have e2 : (decide (c = '/') && decide (d = '*')) = false := by
        rw [Bool.and_eq_false_iff]
        by_cases hc : c = '/'
        · refine Or.inr ?_
          simp only [decide_eq_false_iff_not]
          exact fun hd => hcne2 ⟨hc, hd⟩
        · exact Or.inl (by simp [hc])
      rw [e1, e2]
      simp only [Bool.false_eq_true, if_false]
      rw [ih]
      simp only [List.length_cons] at h ⊢
      omega

/-- `preprocess_code` through the fuel evaluator: with fuel `code.length` the
two comment strippers agree, so concrete runs of the preprocessor reduce. -/
theorem preprocess_eval (code : Str) :
    preprocess_code code = ((splitNL (rcF code.length code)).map strip).filter keepLine := by
  unfold preprocess_code
  rw [rcF_eq code code.length le_rfl]

/-! ## Concrete programs exercised below -/

set_option maxRecDepth 100000
set_option synthInstance.maxSize 2000

/-- Scenario B, already given as trimmed statement lines. -/
def sbLines : List Str := [str "x = 1;", str "if (x > 0) \x7b", str "y = 2; \x7d", str "z = 3;"]

def sbBlocks : List (Str × List Str) := create_basic_blocks sbLines (find_leaders sbLines)

def sbEdges : List (Str × Str × Str) := create_edges sbBlocks

/-- Three nested `while` headers guarding one assignment (the preprocessed
line list of such a program). -/
def nwLines : List Str := [str "while (a)", str "while (b)", str "while (c)", str "x = 1;"]

def nwBlocks : List (Str × List Str) := create_basic_blocks nwLines (find_leaders nwLines)

def nwEdges : List (Str × Str × Str) := create_edges nwBlocks

/-- An `if` with a `return` in each arm, then a trailing statement. -/
def c4Lines : List Str := [str "if (x)", str "return 1;", str "else return 0;", str "y = 2;"]

def c4Blocks : List (Str × List Str) := create_basic_blocks c4Lines (find_leaders c4Lines)

def c4Edges : List (Str × Str × Str) := create_edges c4Blocks

/-- The same assignment text in two different blocks. -/
def bs9a : List (Str × List Str) := [(str "B0", [str "x = 1;"]), (str "B1", [str "x = 1;"])]

/-- The same assignment text twice in one block. -/
def bs9b : List (Str × List Str) := [(str "B0", [str "x = 1;", str "x = 1;"])]

/-- Two plain assignment blocks (for exercising the solver's ordering). -/
def bs8 : List (Str × List Str) := [(str "B0", [str "x = 1;"]), (str "B1", [str "y = 2;"])]

/-- Text that preprocesses to nothing: a line comment, brace-only lines and a
block comment. -/
def c10code : Str := str "// c\n\x7b\n\x7d\n/* b */"

/-! ## The claims -/

/-- C1 (corrected): the solver always terminates — within
`|blocks| * |Definitions| + 1` sweeps the loop exits by the `changed = False`
branch, and one further sweep over the final `out` map reports no change.
The spec's sweep bound `|Definitions| + 1` is refuted by
`c1_counterexample`: nested loops propagate a definition one CFG step per
sweep, so the sweep count also grows with the number of blocks. -/
theorem c1_solver_terminates (blocks : List (Str × List Str))
    (edges : List (Str × Str × Str)) :
    (reaching_definitions blocks edges).1 ≤
      blocks.length * (find_definitions blocks).length + 1 ∧
    sweepAux (rdGen blocks) (rdKill blocks) (compute_predecessors blocks edges)
      (blocks.map Prod.fst) ((reaching_definitions blocks edges).2, false) =
      ((reaching_definitions blocks edges).2, false) := by
  have h := rdOrder_spec blocks edges (blocks.map Prod.fst) (by rw [List.length_map])
  rw [reaching_definitions_eq_order]
  exact ⟨h.2, sweepAux_ofFix (rdGen blocks) (rdKill blocks)
    (compute_predecessors blocks edges) (blocks.map Prod.fst) _ h.1⟩

/-- C1's counterexample to the claimed bound: the three nested `while`
headers produce one definition, so the claimed bound is
`|Definitions| + 1 = 2`, but the solver performs 5 sweeps. -/
theorem c1_counterexample :
    (find_definitions nwBlocks).length = 1 ∧
    (reaching_definitions nwBlocks nwEdges).1 = 5 :=
  ⟨by decide, by decide⟩

/-- C2: starting from all-empty `out` sets, each block's `out` at the end of
sweep `k + 1` contains its `out` at the end of sweep `k`, for every `k`. -/
theorem c2_out_monotone (blocks : List (Str × List Str))
    (edges : List (Str × Str × Str)) (k : ℕ) (l : Str) :
    rdIter blocks edges k l ⊆ rdIter blocks edges (k + 1) l :=
  rdIter_subset_succ blocks edges k l

/-- C3: on Scenario B the pipeline marks the `if` line (index 1) and its
successor (index 2) as leaders, makes the `if` line a decision block `B1`
with a `true` edge to the assignment body `B2` and a `false` edge skipping
to the merge block `B3`, and computes `N = 4`, `E = 4`,
`CC = E - N + 2 = 2`. -/
theorem c3_scenario_b :
    find_leaders sbLines = [0, 1, 2, 3] ∧
    sbBlocks = [(str "B0", [str "x = 1;"]), (str "B1", [str "if (x > 0) \x7b"]),
      (str "B2", [str "y = 2; \x7d"]), (str "B3", [str "z = 3;"])] ∧
    (str "B1", str "B2", str "true") ∈ sbEdges ∧
    (str "B1", str "B3", str "false") ∈ sbEdges ∧
    compute_metrics sbBlocks sbEdges = (4, 4, 2) :=
  ⟨by decide, by decide, by decide, by decide, by decide⟩

/-- C4 (corrected): every plain (unlabeled) edge leaves a block that either
contains `else` or does not contain `return` in its joined text.  A block
containing `return` is only guaranteed terminal when the `else` rule does
not fire first; `c4_counterexample` shows a `return` block that still gets a
plain fallthrough edge. -/
theorem c4_plain_edge_source (blocks : List (Str × List Str))
    (e : Str × Str × Str) (he : e ∈ create_edges blocks) (hp : e.2.2 = []) :
    ∃ bl, (e.1, bl) ∈ blocks ∧
      (strContains (str "else") (joinSp bl) = true ∨
       strContains (str "return") (joinSp bl) = false) := by
  unfold create_edges at he
  exact ceAux_plain blocks ∅ e (List.mem_dedup.mp he) hp

theorem c4_plain_edge_source_witness :
    (str "B0", str "B1", ([] : Str)) ∈
      create_edges [(str "B0", [str "x = 1;"]), (str "B1", [str "z = 3;"])] ∧
    ((str "B0", str "B1", ([] : Str)).2.2 = []) ∧
    ∃ bl, ((str "B0", str "B1", ([] : Str)).1, bl) ∈
        [(str "B0", [str "x = 1;"]), (str "B1", [str "z = 3;"])] ∧
      (strContains (str "else") (joinSp bl) = true ∨
       strContains (str "return") (joinSp bl) = false) :=
  have he : (str "B0", str "B1", ([] : Str)) ∈
      create_edges [(str "B0", [str "x = 1;"]), (str "B1", [str "z = 3;"])] := by decide
  ⟨he, rfl, c4_plain_edge_source _ _ he rfl⟩

/-- C4's counterexample: block `B2`, whose text `else return 0;` contains
`return`, still receives the plain fallthrough edge `(B2, B3, "")` because
the `else` rule matches it first. -/
theorem c4_counterexample :
    (str "B2", [str "else return 0;"]) ∈ c4Blocks ∧
    strContains (str "return") (joinSp [str "else return 0;"]) = true ∧
    (str "B2", str "B3", ([] : Str)) ∈ c4Edges :=
  ⟨by decide, by decide, by decide⟩

/-- C5 (corrected): every definition the collector records comes from a line
of its block of the form `pre ++ var ++ spaces ++ "=" ++ expr ++ ";" ++ rest`
where the recorded variable `var` is a non-empty identifier and `expr` is a
non-empty semicolon-free run — but the prefix `pre` is unconstrained, so the
left-hand side need not be a bare identifier and the recorded variable can
be a proper suffix of it (`c5_counterexample`: member assignments are
recognized, and the variable may drop leading identifier characters). -/
theorem c5_definition_shape {blocks : List (Str × List Str)} {d : Defn}
    (h : d ∈ find_definitions blocks) :
    ∃ lbl bl, (lbl, bl) ∈ blocks ∧ d.block = lbl ∧ d.line ∈ bl ∧
      ∃ pre sp e rest,
        d.line = pre ++ (d.var ++ (sp ++ '=' :: (e ++ ';' :: rest))) ∧
        d.var ≠ [] ∧ (∀ c ∈ d.var, isWordChar c = true) ∧
        (∃ c0 t, d.var = c0 :: t ∧ isIdentStart c0 = true) ∧
        (∀ c ∈ sp, isPySpace c = true) ∧ e ≠ [] ∧ ';' ∉ e := by
  obtain ⟨lbl, bl, h1, h2, h3, h4⟩ := find_definitions_mem h
  exact ⟨lbl, bl, h1, h2, h3, matchAssign_decomp h4⟩

theorem c5_definition_shape_witness :
    (⟨1, str "x = 1;", str "x", str "B0"⟩ : Defn) ∈
      find_definitions [(str "B0", [str "x = 1;"])] ∧
    ∃ lbl bl, (lbl, bl) ∈ [(str "B0", [str "x = 1;"])] ∧
      (⟨1, str "x = 1;", str "x", str "B0"⟩ : Defn).block = lbl ∧
      (⟨1, str "x = 1;", str "x", str "B0"⟩ : Defn).line ∈ bl ∧
      ∃ pre sp e rest,
        (⟨1, str "x = 1;", str "x", str "B0"⟩ : Defn).line =
          pre ++ ((⟨1, str "x = 1;", str "x", str "B0"⟩ : Defn).var ++
            (sp ++ '=' :: (e ++ ';' :: rest))) ∧
        (⟨1, str "x = 1;", str "x", str "B0"⟩ : Defn).var ≠ [] ∧
        (∀ c ∈ (⟨1, str "x = 1;", str "x", str "B0"⟩ : Defn).var,
          isWordChar c = true) ∧
        (∃ c0 t, (⟨1, str "x = 1;", str "x", str "B0"⟩ : Defn).var = c0 :: t ∧
          isIdentStart c0 = true) ∧
        (∀ c ∈ sp, isPySpace c = true) ∧ e ≠ [] ∧ ';' ∉ e :=
  have h : (⟨1, str "x = 1;", str "x", str "B0"⟩ : Defn) ∈
      find_definitions [(str "B0", [str "x = 1;"])] := by decide
  ⟨h, c5_definition_shape h⟩

/-- C5's counterexample: the member assignment `obj.x = 1;` is recognized
(recorded variable `x`, not a bare left-hand side), and for `xy = 1;` the
recorded variable is `y`, not the full left-hand identifier `xy`. -/
theorem c5_counterexample :
    find_definitions [(str "B0", [str "obj.x = 1;"])] =
      [⟨1, str "obj.x = 1;", str "x", str "B0"⟩] ∧
    find_definitions [(str "B0", [str "xy = 1;"])] =
      [⟨1, str "xy = 1;", str "y", str "B0"⟩] :=
  ⟨by decide, by decide⟩

/-- C6: the preprocessor is idempotent — re-running it on the newline-join
of its own output returns exactly the line sequence of the first run. -/
theorem c6_preprocess_idempotent (code : Str) :
    preprocess_code (joinNL (preprocess_code code)) = preprocess_code code :=
  preprocess_code_idem code

/-- C7: for every non-empty preprocessed line sequence, index 0 is a leader,
at least one basic block is produced, and concatenating the blocks' line
lists in order gives back exactly the input lines — the blocks partition the
line sequence with no gaps or overlaps, in source order. -/
theorem c7_blocks_partition (lines : List Str) (h : lines ≠ []) :
    0 ∈ find_leaders lines ∧
    create_basic_blocks lines (find_leaders lines) ≠ [] ∧
    ((create_basic_blocks lines (find_leaders lines)).map Prod.snd).flatten = lines :=
  ⟨find_leaders_zero_mem lines, create_basic_blocks_ne_nil lines h,
   create_basic_blocks_partition lines h⟩

theorem c7_blocks_partition_witness :
    ([str "x = 1;"] : List Str) ≠ [] ∧
    (0 ∈ find_leaders [str "x = 1;"] ∧
     create_basic_blocks [str "x = 1;"] (find_leaders [str "x = 1;"]) ≠ [] ∧
     ((create_basic_blocks [str "x = 1;"]
        (find_leaders [str "x = 1;"])).map Prod.snd).flatten = [str "x = 1;"]) :=
  ⟨by decide, c7_blocks_partition [str "x = 1;"] (by decide)⟩

/-- C8: the final `out` map is independent of the order in which blocks are
visited within a sweep — a solver visiting the labels in any permutation of
the block order converges to the same map as `reaching_definitions`. -/
theorem c8_order_independent (blocks : List (Str × List Str))
    (edges : List (Str × Str × Str)) (o : List Str)
    (h : o.Perm (blocks.map Prod.fst)) :
    (reaching_definitions_order blocks edges o).2 =
      (reaching_definitions blocks edges).2 := by
  rw [reaching_definitions_eq_order]
  exact rdOrder_unique blocks edges o (blocks.map Prod.fst) h (List.Perm.refl _)

theorem c8_order_independent_witness :
    ([str "B1", str "B0"] : List Str).Perm (bs8.map Prod.fst) ∧
    (reaching_definitions_order bs8 [] [str "B1", str "B0"]).2 =
      (reaching_definitions bs8 []).2 :=
  have hp : ([str "B1", str "B0"] : List Str).Perm (bs8.map Prod.fst) :=
    List.Perm.swap (str "B0") (str "B1") []
  ⟨hp, c8_order_independent bs8 [] _ hp⟩

/-- C9: gen/kill membership is decided by line-text equality, not position:
whenever a definition's line text occurs among some block's lines, its id is
in that block's gen set (for distinct labels), even if its recorded block is
another one; concretely, with `x = 1;` in both `B0` and `B1`, definition
`D2` (recorded in `B1`) is in `gen[B0]` and `D1` in `gen[B1]`; with `x = 1;`
twice in one block, both definitions are in that block's gen and each also
lands in its kill. -/
theorem c9_gen_kill_by_text {blocks : List (Str × List Str)} {lbl : Str}
    {bl : List Str} {d : Defn} (hnd : (blocks.map Prod.fst).Nodup)
    (hmem : (lbl, bl) ∈ blocks) (hd : d ∈ find_definitions blocks)
    (hline : d.line ∈ bl) :
    d.id ∈ rdGen blocks lbl ∧
    find_definitions bs9a = [⟨1, str "x = 1;", str "x", str "B0"⟩,
      ⟨2, str "x = 1;", str "x", str "B1"⟩] ∧
    (2 : ℕ) ∈ rdGen bs9a (str "B0") ∧ (1 : ℕ) ∈ rdGen bs9a (str "B1") ∧
    rdGen bs9b (str "B0") = {1, 2} ∧ rdKill bs9b (str "B0") = {1, 2} := by
  refine ⟨?_, by decide, by decide, by decide, by decide, by decide⟩
  rw [rdGen_at hnd hmem]
  exact mem_genOfBlock hd hline

theorem c9_gen_kill_by_text_witness :
    ((bs9a.map Prod.fst).Nodup ∧
     (str "B0", [str "x = 1;"]) ∈ bs9a ∧
     (⟨2, str "x = 1;", str "x", str "B1"⟩ : Defn) ∈ find_definitions bs9a ∧
     (⟨2, str "x = 1;", str "x", str "B1"⟩ : Defn).line ∈ [str "x = 1;"]) ∧
    (⟨2, str "x = 1;", str "x", str "B1"⟩ : Defn).id ∈ rdGen bs9a (str "B0") :=
  have h1 : (bs9a.map Prod.fst).Nodup := by decide
  have h2 : (str "B0", [str "x = 1;"]) ∈ bs9a := by decide
  have h3 : (⟨2, str "x = 1;", str "x", str "B1"⟩ : Defn) ∈ find_definitions bs9a := by
    decide
  have h4 : (⟨2, str "x = 1;", str "x", str "B1"⟩ : Defn).line ∈
      [str "x = 1;"] := by decide
  ⟨⟨h1, h2, h3, h4⟩, (c9_gen_kill_by_text h1 h2 h3 h4).1⟩

/-- C10: whenever preprocessing leaves no statement lines, the pipeline
still completes and yields zero blocks, zero edges, and
`CC = E - N + 2 = 0 - 0 + 2 = 2`. -/
theorem c10_empty_input (code : Str) (h : preprocess_code code = []) :
    analyze_cfg code = ([], [], 0, 0, 2) := by
  unfold analyze_cfg
  rw [h]
  decide

theorem c10_empty_input_witness :
    preprocess_code c10code = [] ∧ analyze_cfg c10code = ([], [], 0, 0, 2) :=
  have h : preprocess_code c10code = [] := by
    rw [preprocess_eval]; decide
  ⟨h, c10_empty_input c10code h⟩
